import Mathlib

/-!
Verification development for the rift-copilot research pipeline.

Texts are modelled as `List Char` (`Str`); JavaScript strings are UTF-16,
and every concrete input considered here lies in the Basic Multilingual
Plane, where one JS code unit corresponds to one `Char`.  JavaScript
number arithmetic that feeds `Math.floor`/`Math.ceil` is modelled exactly
(IEEE-754 doubles for the one constant that matters, exact rational
arithmetic via integer ceil-divisions elsewhere); each such modelling
decision is documented at the definition it concerns.

Sources embedded below (paths refer to the repository):
  - src/lib/text.ts            (estimateTokens, splitIntoWindows, splitParagraphs,
                                sanitizeText, decodeHtmlEntities, findQuoteOffsets,
                                tolerantFind, countTokenStats)
  - src/features/research/server/deepresearch.ts
                               (buildAndStream, trimChunksToBudget, shrinkChunkText,
                                safeJson, planSubqueries, ingestUrl configuration)
  - src/features/research/server/deepsearch.ts (canonicalizeUrl)
  - src/features/research/server/messages.ts   (parseJSON)
  - src/lib/sse.ts             (formatEvent, createSSEDecoder)
-/

/-- Text is a list of characters; JS strings restricted to the BMP. -/
abbrev Str := List Char

/-- Membership in the JavaScript regular-expression class `\s`
(ECMA-262 WhiteSpace ∪ LineTerminator). -/
def isJsSpace (c : Char) : Bool :=
  let n := c.toNat
  n == 9 || n == 10 || n == 11 || n == 12 || n == 13 || n == 32 ||
  n == 0xa0 || n == 0x1680 || (0x2000 ≤ n && n ≤ 0x200a) ||
  n == 0x2028 || n == 0x2029 || n == 0x202f || n == 0x205f ||
  n == 0x3000 || n == 0xfeff

/-- JavaScript `String.prototype.trimStart`. -/
def jsTrimStart (s : Str) : Str := s.dropWhile isJsSpace

/-- JavaScript `String.prototype.trimEnd`. -/
def jsTrimEnd (s : Str) : Str := (s.reverse.dropWhile isJsSpace).reverse

/-- JavaScript `String.prototype.trim`. -/
def jsTrim (s : Str) : Str := jsTrimEnd (jsTrimStart s)

/-- JavaScript `s.slice(a, b)` for non-negative indices. -/
def jsSlice (s : Str) (a b : Nat) : Str := (s.take b).drop a

/-- JavaScript `s.slice(-k)`: the last `k` characters, except that
`k = 0` (the `-0` index) yields the whole string. -/
def jsSliceNeg (s : Str) (k : Nat) : Str :=
  if k = 0 then s else s.drop (s.length - k)

/-- JavaScript `s.length` (UTF-16 code units): astral code points count
twice. -/
def utf16Len : Str → Nat
  | [] => 0
  | c :: r => (if 0x10000 ≤ c.toNat then 2 else 1) + utf16Len r

/- ------------------------------------------------------------------
   IEEE-754 helper for `Math.floor(n * 0.7)` (shrinkChunkText).
   ------------------------------------------------------------------ -/

/-- Number of binary digits of `n` (0 for 0); the first argument is
structural fuel, sufficient whenever it is at least `n`. -/
def bitLenAux : Nat → Nat → Nat
  | 0, _ => 0
  | f + 1, n => if n = 0 then 0 else bitLenAux f (n / 2) + 1

/-- Number of binary digits of `n` (0 for 0). -/
def bitLen (n : Nat) : Nat := bitLenAux n n

/-- Round a natural number to the 53-bit mantissa grid of IEEE-754
double precision, ties to even (the result is returned at the same
scale, i.e. as a multiple of the dropped power of two). -/
def roundMantissa (v : Nat) : Nat :=
  let b := bitLen v
  if b ≤ 53 then v
  else
    let drop := b - 53
    let q := v / 2 ^ drop
    let r := v % 2 ^ drop
    let half := 2 ^ (drop - 1)
    let q2 := if half < r || (r == half && q % 2 == 1) then q + 1 else q
    q2 * 2 ^ drop

/-- JavaScript `Math.floor(n * 0.7)` for a natural `n`: the literal `0.7`
is the double `3152519739159347 / 2^52`; the product is rounded to
nearest-even onto the 53-bit mantissa grid and then floored. -/
def jsFloorMul07 (n : Nat) : Nat :=
  roundMantissa (n * 3152519739159347) / 2 ^ 52

/- ------------------------------------------------------------------
   deepresearch.ts: shrinkChunkText (claim C10).
   ------------------------------------------------------------------ -/

/-- Source `deepresearch.ts` lines 1093-1099: keep a `Math.floor(maxChars*0.7)`
character head and a `maxChars - head` character tail around a `"\n…\n"`
marker; short or empty texts are returned unchanged. -/
def shrinkChunkText (text : Str) (maxChars : Nat) : Str :=
  if text = [] ∨ text.length ≤ maxChars then text
  else
    let hd := jsFloorMul07 maxChars
    let tl := maxChars - hd
    text.take hd ++ ('\n' :: '…' :: '\n' :: []) ++ jsSliceNeg text tl

/- ------------------------------------------------------------------
   text.ts: countTokenStats / estimateTokens (claim C7 support).
   ------------------------------------------------------------------ -/

/-- Membership in the punctuation class of `countTokenStats`
(text.ts line 551). -/
def isPunctTok (c : Char) : Bool :=
  c == '.' || c == ',' || c == '!' || c == '?' || c == ';' || c == ':' ||
  c == '(' || c == ')' || c == '[' || c == ']' ||
  c == Char.ofNat 123 || c == Char.ofNat 125 ||
  c == '"' || c == '“' || c == '”' || c == Char.ofNat 39 ||
  c == '‘' || c == '’' || c == '—' || c == '–' || c == '-' || c == '…'

/-- Count maximal runs of non-whitespace characters (the value of
`s.trim().split(/\s+/).filter(Boolean).length`). -/
def wsRunCount : Str → Bool → Nat
  | [], _ => 0
  | c :: r, inWord =>
    if isJsSpace c then wsRunCount r false
    else (if inWord then 0 else 1) + wsRunCount r true

/-- Source `text.ts` lines 565-569 (`countWords`). -/
def countWords (s : Str) : Nat :=
  if s = [] then 0 else wsRunCount (jsTrim s) false

/-- Statistics gathered by `countTokenStats` (text.ts lines 539-563). -/
structure TokenStats where
  chars : Nat
  codePoints : Nat
  ascii : Nat
  nonAscii : Nat
  whitespace : Nat
  punctuation : Nat
  words : Nat
  deriving DecidableEq

/-- Count of code points `c` of `s` with `p c`. -/
def countP (p : Char → Bool) (s : Str) : Nat := (s.filter p).length

/-- Source `text.ts` lines 539-563 (`countTokenStats`): `chars` is the
UTF-16 length, the per-character loop walks code points. -/
def countTokenStats (s : Str) : TokenStats :=
  { chars := utf16Len s
    codePoints := s.length
    ascii := countP (fun c => c.toNat ≤ 0x7f) s
    nonAscii := countP (fun c => 0x7f < c.toNat) s
    whitespace := countP isJsSpace s
    punctuation := countP isPunctTok s
    words := countWords s }

/-- Source `text.ts` lines 22-35 (`estimateTokens`) with its default
options (`method = "hybrid"`, `charsPerToken = 4`), as used by
`trimChunksToBudget`.  The source computes
`byChars = Math.ceil(chars / 4)`,
`byWords = Math.ceil(words * 1.25 + punctuation * 0.2)` and
`penalty = Math.ceil(nonAscii * 0.02)` with doubles; here the ceilings
are taken over the exact rationals (`⌈(25w + 4p)/20⌉`, `⌈n/50⌉`).  The
IEEE evaluation can differ from the exact one only when the exact value
lies within `2^-46` of an integer, which affects no statement below. -/
def estimateTokens (s : Str) : Nat :=
  let st := countTokenStats s
  let byChars := (st.chars + 3) / 4
  let byWords := (25 * st.words + 4 * st.punctuation + 19) / 20
  let penalty := (st.nonAscii + 49) / 50
  max byChars byWords + penalty

/- ------------------------------------------------------------------
   deepresearch.ts: trimChunksToBudget (claim C7).
   ------------------------------------------------------------------ -/

/-- Context snippet handed to the answer prompt
(`ContextChunkSchema`, types.ts lines 58-63). -/
structure ContextChunk where
  sourceId : Str
  chunkId : Option Str
  text : Str
  deriving DecidableEq

/-- Effective token cap of `trimChunksToBudget`
(deepresearch.ts line 1073): `Math.max(300, budget - reserve)`. -/
def effectiveCap (budget reserve : Int) : Int := max 300 (budget - reserve)

/-- Accumulation loop of `trimChunksToBudget` (deepresearch.ts lines
1074-1082): push chunks in order while the running token total stays
within the cap; stop at the first chunk that would exceed it. -/
def trimLoop (maxT : Int) : List ContextChunk → Nat → List ContextChunk
  | [], _ => []
  | c :: rest, used =>
    let t := estimateTokens c.text
    if maxT < (used + t : Int) then []
    else c :: trimLoop maxT rest (used + t)

/-- Source `deepresearch.ts` lines 1068-1089 (`trimChunksToBudget`). -/
def trimChunksToBudget (chunks : List ContextChunk) (budget reserve : Int) :
    List ContextChunk :=
  let out := trimLoop (effectiveCap budget reserve) chunks 0
  match chunks, out with
  | [], _ => []
  | c0 :: _, [] => [c0]
  | _, o => o

/-- Total `estimateTokens` mass of a chunk list, as an integer. -/
def sumTokens (l : List ContextChunk) : Int :=
  (l.map fun c => (estimateTokens c.text : Int)).sum

/- ------------------------------------------------------------------
   deepresearch.ts: buildAndStream (claim C1).
   ------------------------------------------------------------------ -/

/-- Events emitted by `buildAndStream` (deepresearch.ts lines 428-469):
one `token` per non-empty stream delta, then a single `answer`. -/
inductive EmitEvent where
  | token (data : Str)
  | answer (text : Str)
  deriving DecidableEq

/-- One iteration of the `for await (const delta of ...)` loop
(deepresearch.ts lines 449-455): state is
(answerBuffer, streamedChunks, emitted events). -/
def buildAndStreamStep (st : Str × Nat × List EmitEvent) (delta : Str) :
    Str × Nat × List EmitEvent :=
  if delta = [] then st
  else (st.1 ++ delta, st.2.1 + 1, st.2.2 ++ [EmitEvent.token delta])

/-- Source `deepresearch.ts` lines 446-469 (`buildAndStream`), modelled
as a pure function of the list of stream deltas: returns the emitted
events and the returned `full` text.  `full = answerBuffer.trim()`; when
no chunk streamed and `full` is non-empty a single safety `token` is
emitted, and a final `answer` event always follows. -/
def buildAndStream (deltas : List Str) : List EmitEvent × Str :=
  let st := deltas.foldl buildAndStreamStep ([], 0, [])
  let full := jsTrim st.1
  let safety :=
    if st.2.1 = 0 ∧ 0 < full.length then [EmitEvent.token full] else []
  (st.2.2 ++ safety ++ [EmitEvent.answer full], full)

/-- Concatenation, in emission order, of the payloads of `token` events. -/
def tokenPayloadConcat (evs : List EmitEvent) : Str :=
  (evs.filterMap fun e =>
    match e with
    | .token d => some d
    | _ => none).flatten

/-- Texts of `answer` events, in emission order. -/
def answerTexts (evs : List EmitEvent) : List Str :=
  evs.filterMap fun e =>
    match e with
    | .answer t => some t
    | _ => none

/-- Assistant message content persisted by `deepResearch`
(deepresearch.ts lines 507-521): `contentMd` is exactly the string
returned by `buildAndStream`. -/
def persistedAssistantContent (deltas : List Str) : Str :=
  (buildAndStream deltas).2

/- ------------------------------------------------------------------
   text.ts: sanitizeText / decodeHtmlEntities (claim C5).
   ------------------------------------------------------------------ -/

/-- Membership in the control-character class removed by `sanitizeText`
(text.ts line 226). -/
def isControlToRemove (c : Char) : Bool :=
  let n := c.toNat
  n ≤ 8 || n == 0xb || n == 0xc || (0xe ≤ n && n ≤ 0x1f) || n == 0x7f

/-- Control-character removal step of `sanitizeText`. -/
def removeControlChars (s : Str) : Str := s.filter fun c => !isControlToRemove c

/-- Membership in the character class `[a-zA-Z#0-9]` of the entity regex
(text.ts line 584). -/
def entityChar (c : Char) : Bool :=
  (Char.ofNat 97 ≤ c && c ≤ Char.ofNat 122) ||
  (Char.ofNat 65 ≤ c && c ≤ Char.ofNat 90) ||
  c == '#' || (Char.ofNat 48 ≤ c && c ≤ Char.ofNat 57)

/-- Replacement table of `decodeHtmlEntities` (text.ts lines 572-583). -/
def entityPairs : List (Str × Str) :=
  [ ("&amp;".toList, "&".toList)
  , ("&lt;".toList, "<".toList)
  , ("&gt;".toList, ">".toList)
  , ("&#39;".toList, [Char.ofNat 39])
  , ("&apos;".toList, [Char.ofNat 39])
  , ("&quot;".toList, "\"".toList)
  , ("&nbsp;".toList, " ".toList)
  , ("&ndash;".toList, "–".toList)
  , ("&mdash;".toList, "—".toList)
  , ("&hellip;".toList, "…".toList) ]

/-- Table lookup of a matched entity; unmatched entities stay as they
are (`map[m] ?? m`). -/
def entityMap (m : Str) : Str :=
  match entityPairs.find? (fun p => decide (p.1 = m)) with
  | some p => p.2
  | none => m

/-- Scanner for `s.replace(/&[a-zA-Z#0-9]+;?/g, m => map[m] ?? m)`: the
second argument is `none` outside a candidate entity and `some run`
after an ampersand followed by the run read so far. -/
def decodeEntitiesGo : Str → Option Str → Str
  | [], none => []
  | [], some run => entityMap ('&' :: run)
  | c :: rest, none =>
    if c = '&' then decodeEntitiesGo rest (some [])
    else c :: decodeEntitiesGo rest none
  | c :: rest, some run =>
    if entityChar c then decodeEntitiesGo rest (some (run ++ [c]))
    else if c = ';' ∧ run ≠ [] then
      entityMap ('&' :: run ++ [';']) ++ decodeEntitiesGo rest none
    else if run = [] then
      '&' :: (if c = '&' then decodeEntitiesGo rest (some [])
              else c :: decodeEntitiesGo rest none)
    else
      entityMap ('&' :: run) ++
        (if c = '&' then decodeEntitiesGo rest (some [])
         else c :: decodeEntitiesGo rest none)

/-- Source `text.ts` lines 571-585 (`decodeHtmlEntities`). -/
def decodeHtmlEntities (s : Str) : Str := decodeEntitiesGo s none

/-- Space or tab (the class `[ \t]`). -/
def isSpaceTab (c : Char) : Bool := c == ' ' || c == '\t'

/-- Scanner for `replace(/[ \t]+/g, " ")`; the flag records whether the
previous character belonged to a run. -/
def collapseSpaceTabRuns : Str → Bool → Str
  | [], _ => []
  | c :: r, inRun =>
    if isSpaceTab c then
      (if inRun then collapseSpaceTabRuns r true
       else ' ' :: collapseSpaceTabRuns r true)
    else c :: collapseSpaceTabRuns r false

/-- Scanner for `replace(/\n{3,}/g, "\n\n")`; the counter is the number
of pending newline characters. -/
def collapseNlRuns : Str → Nat → Str
  | [], k => List.replicate (min k 2) '\n'
  | c :: r, k =>
    if c = '\n' then collapseNlRuns r (k + 1)
    else List.replicate (min k 2) '\n' ++ (c :: collapseNlRuns r 0)

/-- Scanner for `replace(/[ \t]+\n/g, "\n")`; the second argument is the
pending run of spaces and tabs, dropped when a newline follows. -/
def stripWsBeforeNl : Str → Str → Str
  | [], pend => pend
  | c :: r, pend =>
    if isSpaceTab c then stripWsBeforeNl r (pend ++ [c])
    else if c = '\n' then '\n' :: stripWsBeforeNl r []
    else pend ++ (c :: stripWsBeforeNl r [])

/-- Scanner for `replace(/\s+/g, " ")`. -/
def collapseAllWs : Str → Bool → Str
  | [], _ => []
  | c :: r, inRun =>
    if isJsSpace c then
      (if inRun then collapseAllWs r true else ' ' :: collapseAllWs r true)
    else c :: collapseAllWs r false

/-- Unicode normalization (`String.prototype.normalize`, NFC/NFKC/...).
On ASCII text every normalization form is the identity; the statements
below are restricted to ASCII inputs, so the identity map is a faithful
model there.  (On non-ASCII input NFKC may lengthen the string and
introduce characters, e.g. the single ligature `ﬁ` becomes `fi`.) -/
def normalizeUnicode (s : Str) : Str := s

/-- Options of `sanitizeText` (text.ts lines 199-218): `normalize` is
truthy iff a normalization form was requested (default NFKC).  Every
call site in the repository passes `stripMarkdownSyntax` as false or
omits it, so the markdown-stripping branch is not modelled. -/
structure SanitizeOpts where
  normalize : Bool
  removeControl : Bool
  collapseWhitespace : Bool
  preserveNewlines : Bool
  decodeEntities : Bool
  deriving DecidableEq

/-- Default options of `sanitizeText` (text.ts lines 211-218). -/
def defaultSanitizeOpts : SanitizeOpts := ⟨true, true, false, true, true⟩

/-- Source `text.ts` lines 199-245 (`sanitizeText`), for the option
space described at `SanitizeOpts`. -/
def sanitizeText (s : Str) (o : SanitizeOpts) : Str :=
  if s = [] then []
  else
    let t1 := if o.normalize then normalizeUnicode s else s
    let t2 := if o.removeControl then removeControlChars t1 else t1
    let t3 := if o.decodeEntities then decodeHtmlEntities t2 else t2
    if o.collapseWhitespace then
      if o.preserveNewlines then
        stripWsBeforeNl (collapseNlRuns (collapseSpaceTabRuns t3 false) 0) []
      else jsTrim (collapseAllWs t3 false)
    else t3

/- ------------------------------------------------------------------
   text.ts: findQuoteOffsets / tolerantFind (claim C3).
   ------------------------------------------------------------------ -/

/-- JavaScript `toLowerCase`/`toLocaleLowerCase`, modelled on the ASCII
range; the non-ASCII characters appearing in the inputs below (degree
sign, curly quotes, dashes) are case-invariant. -/
def jsToLower (c : Char) : Char :=
  if 65 ≤ c.toNat ∧ c.toNat ≤ 90 then Char.ofNat (c.toNat + 32)
  else c

/-- Options record of `tolerantFind` (text.ts lines 444-450). -/
structure TolerantOpts where
  ignoreCase : Bool
  ignoreWhitespace : Bool
  normalizeQuotes : Bool
  normalizeDashes : Bool
  maxSteps : Nat
  deriving DecidableEq

/-- Character normalization of `tolerantFind` (text.ts lines 452-462):
lower-casing, curly quotes to plain quotes, unicode dashes to `-`, and
any `\s` character to a space, in that order. -/
def normChar (o : TolerantOpts) (c : Char) : Char :=
  let c1 := if o.ignoreCase then jsToLower c else c
  let c2 :=
    if o.normalizeQuotes then
      (if c1 = '“' ∨ c1 = '”' ∨ c1 = '„' ∨ c1 = '»' ∨ c1 = '«' then '"'
       else if c1 = '‘' ∨ c1 = '’' ∨ c1 = '‚' ∨ c1 = '‹' ∨ c1 = '›' then
         Char.ofNat 39
       else c1)
    else c1
  let c3 :=
    if o.normalizeDashes ∧ (c2 = '—' ∨ c2 = '–' ∨ c2 = '‐' ∨ c2 = '‑' ∨
        c2 = '‒') then '-'
    else c2
  if o.ignoreWhitespace ∧ isJsSpace c3 then ' ' else c3

/-- Needle normalization of `tolerantFind` (text.ts lines 463-475):
normalize characters and collapse space runs to single spaces. -/
def buildNormNeedle (o : TolerantOpts) : Str → Bool → Str
  | [], _ => []
  | c :: r, lastWasSpace =>
    let n := normChar o c
    if n = ' ' then
      (if lastWasSpace then buildNormNeedle o r true
       else ' ' :: buildNormNeedle o r true)
    else n :: buildNormNeedle o r false

/-- Result of the inner matching loop of `tolerantFind`: the step budget
was exhausted, the match failed (with the updated step counter), or the
whole needle matched ending at hay position `hi`. -/
inductive InnerRes where
  | overflow : InnerRes
  | nomatch (steps : Nat) : InnerRes
  | found (startO : Option Nat) (hi : Nat) : InnerRes
  deriving DecidableEq

/-- Inner `while` loop of `tolerantFind` (text.ts lines 486-506); the
hay suffix starts at absolute position `hi`.  The step counter increases
once per comparison and once per whitespace character scanned by the
(otherwise effect-free) look-ahead loop, exactly as in the source. -/
def innerLoop (o : TolerantOpts) : Str → Str → Nat → Option Nat → Nat → InnerRes
  | _, [], hi, startO, _ => .found startO hi
  | [], _ :: _, _, _, steps => .nomatch steps
  | hc :: hrest, nc :: nrest, hi, startO, steps =>
    let s1 := steps + 1
    if o.maxSteps < s1 then .overflow
    else
      let hch := normChar o hc
      let wsr := if o.ignoreWhitespace ∧ hch = ' ' then
          (hrest.takeWhile isJsSpace).length else 0
      let s2 := s1 + wsr
      if 0 < wsr ∧ o.maxSteps < s2 then .overflow
      else if hch = nc then
        innerLoop o hrest nrest (hi + 1) (some (startO.getD hi)) s2
      else .nomatch s2

/-- End-extension after a successful match (text.ts lines 508-511):
when the normalized needle ends in a space, trailing hay whitespace is
absorbed into the match. -/
def extendEnd (o : TolerantOpts) (hay nn : Str) (hi : Nat) : Nat :=
  if o.ignoreWhitespace ∧ nn.getLast? = some ' ' then
    hi + ((hay.drop hi).takeWhile isJsSpace).length
  else hi

/-- Outer `for` loop of `tolerantFind` (text.ts lines 480-514): try each
hay position whose normalized character equals the first needle
character; the step counter persists across attempts. -/
def outerLoop (o : TolerantOpts) (hay nn : Str) (n0 : Char) :
    Str → Nat → Nat → Option (Nat × Nat)
  | [], _, _ => none
  | c :: rest, i, steps =>
    if normChar o c ≠ n0 then outerLoop o hay nn n0 rest (i + 1) steps
    else
      match innerLoop o (c :: rest) nn i none steps with
      | .overflow => none
      | .nomatch s2 => outerLoop o hay nn n0 rest (i + 1) s2
      | .found startO hi => some (startO.getD i, extendEnd o hay nn hi)

/-- Source `text.ts` lines 441-516 (`tolerantFind`). -/
def tolerantFind (hay needle : Str) (o : TolerantOpts) : Option (Nat × Nat) :=
  match buildNormNeedle o needle false with
  | [] => none
  | n0 :: ntl => outerLoop o hay (n0 :: ntl) n0 hay 0 0

/-- First index at which `needle` occurs in the scanned suffix, offset
by `i` (the value of `String.prototype.indexOf`). -/
def idxOfAux (needle : Str) : Str → Nat → Option Nat
  | [], i => if needle.isPrefixOf [] then some i else none
  | c :: rest, i =>
    if needle.isPrefixOf (c :: rest) then some i
    else idxOfAux needle rest (i + 1)

/-- Source `text.ts` lines 432-439 (`indexOfSafe`): case-sensitive
`indexOf`, or `indexOf` over both strings lower-cased. -/
def indexOfSafe (hay needle : Str) (ignoreCase : Bool) : Option Nat :=
  if ignoreCase then idxOfAux (needle.map jsToLower) (hay.map jsToLower) 0
  else idxOfAux needle hay 0

/-- Optional options of `findQuoteOffsets` (text.ts lines 412-418);
`none` fields are absent in the JS call. -/
structure FqoOpts where
  ignoreCase : Option Bool
  ignoreWhitespace : Option Bool
  normalizeQuotes : Option Bool
  normalizeDashes : Option Bool
  maxSteps : Option Nat
  deriving DecidableEq

/-- All-absent options (`findQuoteOffsets(hay, quote)`). -/
def defaultFqoOpts : FqoOpts := ⟨none, none, none, none, none⟩

/-- Options passed by `bindOffsetsForEvidence`
(deepresearch.ts lines 1011-1016). -/
def bindOffsetsFqoOpts : FqoOpts := ⟨some true, some true, some true, some true, none⟩

/-- Source `text.ts` lines 409-430 (`findQuoteOffsets`): exact
(optionally case-folded) `indexOf` first, then `tolerantFind` with
defaulted tolerant options. -/
def findQuoteOffsets (text quote : Str) (o : FqoOpts) : Option (Nat × Nat) :=
  if text = [] ∨ quote = [] then none
  else
    match indexOfSafe text quote (o.ignoreCase.getD false) with
    | some idx => some (idx, idx + quote.length)
    | none =>
      tolerantFind text quote
        ⟨o.ignoreCase.getD true, o.ignoreWhitespace.getD true,
         o.normalizeQuotes.getD true, o.normalizeDashes.getD true,
         o.maxSteps.getD 2000000⟩

/-- Length contributed by the pending state of `decodeEntitiesGo`
(proof bookkeeping). -/
def pendingLen : Option Str → Nat
  | none => 0
  | some run => 1 + run.length

/-- Hay text of the specification's binding example. -/
def hayCurie : Str :=
  ("The Curie temperature of iron is 770 °C at standard pressure.").toList

/-- Quote of the specification's binding example (no space before the
degree sign). -/
def needleCurie : Str := ("Curie temperature of iron is 770°C").toList

/- ------------------------------------------------------------------
   JSON values and JSON.parse / JSON.stringify (claims C6, C8, C9).
   ------------------------------------------------------------------ -/

mutual
/-- JSON values.  Numbers are kept as exact rationals: `JSON.parse`
yields doubles, and decimal-to-double conversion is monotone, so the
order comparisons performed by the schemas below (`0 ≤ x ≤ 1`,
integrality) agree with the exact values for every number a model can
emit. -/
inductive Json where
  | null : Json
  | bool (b : Bool) : Json
  | num (q : Rat) : Json
  | str (s : List Char) : Json
  | arr (xs : JsonArr) : Json
  | obj (xs : JsonObj) : Json
  deriving DecidableEq
/-- Array spine (a separate inductive keeps all recursion structural). -/
inductive JsonArr where
  | nil : JsonArr
  | cons (hd : Json) (tl : JsonArr) : JsonArr
  deriving DecidableEq
/-- Object spine; keys are unique (the parser collapses duplicates the
way JavaScript objects do). -/
inductive JsonObj where
  | nil : JsonObj
  | cons (key : List Char) (val : Json) (tl : JsonObj) : JsonObj
  deriving DecidableEq
end

/-- Lookup of a key in an object. -/
def objGet : JsonObj → Str → Option Json
  | .nil, _ => none
  | .cons k v t, key => if k = key then some v else objGet t key

/-- Property assignment: an existing key keeps its position and gets the
new value, a new key is appended (JavaScript object semantics). -/
def objInsert (k : Str) (v : Json) : JsonObj → JsonObj
  | .nil => .cons k v .nil
  | .cons k2 v2 t => if k2 = k then .cons k2 v t else .cons k2 v2 (objInsert k v t)

/-- List view of an array spine. -/
def arrToList : JsonArr → List Json
  | .nil => []
  | .cons h t => h :: arrToList t

/-- Array spine from a list. -/
def listToArr : List Json → JsonArr
  | [] => .nil
  | h :: t => .cons h (listToArr t)

/-- JSON insignificant whitespace (space, tab, line feed, carriage
return — RFC 8259). -/
def isJsonWs (c : Char) : Bool :=
  c == ' ' || c == '\t' || c == '\n' || c == '\r'

/-- Skip JSON whitespace. -/
def skipJsonWs (s : Str) : Str := s.dropWhile isJsonWs

/-- ASCII decimal digit. -/
def isAsciiDigit (c : Char) : Bool := Char.ofNat 48 ≤ c && c ≤ Char.ofNat 57

/-- ASCII letter. -/
def isAsciiAlpha (c : Char) : Bool :=
  (Char.ofNat 97 ≤ c && c ≤ Char.ofNat 122) ||
  (Char.ofNat 65 ≤ c && c ≤ Char.ofNat 90)

/-- Numeric value of a digit string (most significant first). -/
def digitsToNat : Str → Nat → Nat
  | [], acc => acc
  | c :: r, acc => digitsToNat r (acc * 10 + (c.toNat - 48))

/-- Value of a hexadecimal digit. -/
def hexVal (c : Char) : Option Nat :=
  let n := c.toNat
  if 48 ≤ n ∧ n ≤ 57 then some (n - 48)
  else if 97 ≤ n ∧ n ≤ 102 then some (n - 87)
  else if 65 ≤ n ∧ n ≤ 70 then some (n - 55)
  else none

/-- String body scanner of `JSON.parse`, after the opening quote:
returns the decoded content and the rest after the closing quote.
Surrogate pairs in `\uXXXX` escapes are not modelled (the inputs
considered lie in the BMP and escape only BMP code points). -/
def parseStringBody : Str → Option (Str × Str)
  | [] => none
  | '"' :: rest => some ([], rest)
  | '\\' :: 'u' :: h1 :: h2 :: h3 :: h4 :: rest =>
    (do
      let a ← hexVal h1
      let b ← hexVal h2
      let c ← hexVal h3
      let d ← hexVal h4
      let p ← parseStringBody rest
      pure (Char.ofNat (((a * 16 + b) * 16 + c) * 16 + d) :: p.1, p.2))
  | '\\' :: e :: rest =>
    (do
      let c ←
        (match e with
          | '"' => some '"'
          | '\\' => some '\\'
          | '/' => some '/'
          | 'b' => some (Char.ofNat 8)
          | 'f' => some (Char.ofNat 12)
          | 'n' => some '\n'
          | 'r' => some (Char.ofNat 13)
          | 't' => some '\t'
          | _ => none)
      let p ← parseStringBody rest
      pure (c :: p.1, p.2))
  | c :: rest =>
    if c.toNat < 0x20 then none
    else (parseStringBody rest).map fun p => (c :: p.1, p.2)

/-- Number scanner of `JSON.parse` (`-? int frac? exp?`), producing the
exact rational value. -/
def parseNumber (s : Str) : Option (Json × Str) :=
  let (neg, s1) :=
    match s with
    | '-' :: r => (true, r)
    | r => (false, r)
  let intDigits := s1.takeWhile isAsciiDigit
  let s2 := s1.drop intDigits.length
  if intDigits = [] then none
  else if intDigits.length > 1 ∧ intDigits.head? = some (Char.ofNat 48) then
    none
  else
    let hasDot : Bool := match s2 with | '.' :: _ => true | _ => false
    let (fracDigits, s3) :=
      match s2 with
      | '.' :: r =>
        let d := r.takeWhile isAsciiDigit
        (d, r.drop d.length)
      | r => (([] : Str), r)
    if hasDot ∧ fracDigits = [] then none
    else
      let expPart :
          Option (Option (Bool × Str) × Str) :=
        match s3 with
        | 'e' :: r | 'E' :: r =>
          let (esign, r2) :=
            match r with
            | '+' :: t => (false, t)
            | '-' :: t => (true, t)
            | t => (false, t)
          let ed := r2.takeWhile isAsciiDigit
          if ed = [] then none
          else some (some (esign, ed), r2.drop ed.length)
        | r => some (none, r)
      match expPart with
      | none => none
      | some (eopt, rest) =>
        let k := fracDigits.length
        let mantNat := digitsToNat (intDigits ++ fracDigits) 0
        let mant : Int := if neg then -(mantNat : Int) else (mantNat : Int)
        let e10 : Int :=
          (match eopt with
            | none => 0
            | some (esign, ed) =>
              let ev := (digitsToNat ed 0 : Int)
              if esign then -ev else ev) - (k : Int)
        let q : Rat :=
          if 0 ≤ e10 then mkRat (mant * (10 ^ e10.toNat : Nat)) 1
          else mkRat mant (10 ^ (-e10).toNat)
        some (Json.num q, rest)

mutual
/-- Value parser of `JSON.parse`; the fuel argument strictly decreases
on every call and is chosen large enough in `jsonParse` that it is
never exhausted on any input. -/
def parseValue : Nat → Str → Option (Json × Str)
  | 0, _ => none
  | f + 1, s =>
    let s1 := skipJsonWs s
    match s1 with
    | [] => none
    | '"' :: rest =>
      (parseStringBody rest).map fun p => (Json.str p.1, p.2)
    | c :: _ =>
      if c = Char.ofNat 123 then parseObjStart f (s1.drop 1)
      else if c = '[' then parseArrStart f (s1.drop 1)
      else if ("true".toList).isPrefixOf s1 then
        some (Json.bool true, s1.drop 4)
      else if ("false".toList).isPrefixOf s1 then
        some (Json.bool false, s1.drop 5)
      else if ("null".toList).isPrefixOf s1 then
        some (Json.null, s1.drop 4)
      else parseNumber s1
/-- Object parser, after the opening brace. -/
def parseObjStart : Nat → Str → Option (Json × Str)
  | 0, _ => none
  | f + 1, s =>
    let s1 := skipJsonWs s
    match s1 with
    | c :: rest =>
      if c = Char.ofNat 125 then some (Json.obj .nil, rest)
      else parseMembers f s1 .nil
    | [] => none
/-- Object members parser (at a key position). -/
def parseMembers : Nat → Str → JsonObj → Option (Json × Str)
  | 0, _, _ => none
  | f + 1, s, acc =>
    let s1 := skipJsonWs s
    match s1 with
    | '"' :: rest =>
      match parseStringBody rest with
      | none => none
      | some (key, s2) =>
        let s3 := skipJsonWs s2
        match s3 with
        | ':' :: s4 =>
          (match parseValue f s4 with
            | none => none
            | some (v, s5) =>
              let acc2 := objInsert key v acc
              let s6 := skipJsonWs s5
              match s6 with
              | ',' :: s7 => parseMembers f s7 acc2
              | c :: s8 =>
                if c = Char.ofNat 125 then some (Json.obj acc2, s8) else none
              | [] => none)
        | _ => none
    | _ => none
/-- Array parser, after the opening bracket. -/
def parseArrStart : Nat → Str → Option (Json × Str)
  | 0, _ => none
  | f + 1, s =>
    let s1 := skipJsonWs s
    match s1 with
    | ']' :: rest => some (Json.arr .nil, rest)
    | _ => parseElems f s1 (fun l => l)
/-- Array elements parser; the accumulator is a difference list keeping
the elements in order. -/
def parseElems : Nat → Str → (List Json → List Json) → Option (Json × Str)
  | 0, _, _ => none
  | f + 1, s, acc =>
    match parseValue f s with
    | none => none
    | some (v, s2) =>
      let s3 := skipJsonWs s2
      match s3 with
      | ',' :: s4 => parseElems f s4 (fun l => acc (v :: l))
      | ']' :: s4 => some (Json.arr (listToArr (acc [v])), s4)
      | _ => none
end

/-- JavaScript `JSON.parse`, as a total function returning `none` on
syntax errors. -/
def jsonParse (s : Str) : Option Json :=
  match parseValue (4 * s.length + 16) s with
  | some (v, rest) => if skipJsonWs rest = [] then some v else none
  | none => none

/-- Decimal digits of a natural number (fuel-based, structural). -/
def natDigitsAux : Nat → Nat → Str
  | 0, _ => []
  | f + 1, n =>
    if n < 10 then [Char.ofNat (48 + n)]
    else natDigitsAux f (n / 10) ++ [Char.ofNat (48 + n % 10)]

/-- Decimal representation of a natural number. -/
def natDigits (n : Nat) : Str := natDigitsAux (n + 1) n

/-- Decimal representation of an integer. -/
def intToStr (i : Int) : Str :=
  if i < 0 then '-' :: natDigits i.natAbs else natDigits i.toNat

/-- Smallest `k ≤ fuel` with `den ∣ 10^k`, if any. -/
def decScale (den : Nat) : Nat → Nat → Option Nat
  | 0, k => if den ∣ 10 ^ k then some k else none
  | f + 1, k => if den ∣ 10 ^ k then some k else decScale den f (k + 1)

/-- Decimal printing of a rational, exact whenever the denominator
divides a power of ten — which holds for every value `JSON.parse` can
produce.  Number printing beyond integers approximates the JS
shortest-round-trip algorithm; no statement below depends on it. -/
def ratToStr (q : Rat) : Str :=
  if q.den = 1 then intToStr q.num
  else
    match decScale q.den 64 0 with
    | some k =>
      let m := q.num.natAbs * (10 ^ k / q.den)
      let ip := m / 10 ^ k
      let fp := m % 10 ^ k
      let fracRaw := natDigits fp
      let frac :=
        List.replicate (k - fracRaw.length) (Char.ofNat 48) ++ fracRaw
      let fracTrim := (frac.reverse.dropWhile (· = Char.ofNat 48)).reverse
      (if q.num < 0 then ['-'] else []) ++ natDigits ip ++ '.' :: fracTrim
    | none => [Char.ofNat 48]

/-- Escape of one character inside a JSON string literal
(`JSON.stringify`). -/
def escapeJsonChar (c : Char) : Str :=
  if c = '"' then ['\\', '"']
  else if c = '\\' then ['\\', '\\']
  else if c.toNat = 8 then ['\\', 'b']
  else if c.toNat = 12 then ['\\', 'f']
  else if c = '\n' then ['\\', 'n']
  else if c.toNat = 13 then ['\\', 'r']
  else if c = '\t' then ['\\', 't']
  else if c.toNat < 0x20 then
    ['\\', 'u', Char.ofNat 48, Char.ofNat 48,
     (match hexVal (Char.ofNat 48) with | _ => Char.ofNat (48 + c.toNat / 16)),
     (if c.toNat % 16 < 10 then Char.ofNat (48 + c.toNat % 16)
      else Char.ofNat (87 + c.toNat % 16))]
  else [c]

/-- Serialized JSON string literal. -/
def escapeJsonStr (s : Str) : Str :=
  '"' :: (s.map escapeJsonChar).flatten ++ ['"']

mutual
/-- JavaScript `JSON.stringify` (no indentation), over the value family
above. -/
def jsonStringify : Json → Str
  | .null => "null".toList
  | .bool true => "true".toList
  | .bool false => "false".toList
  | .num q => ratToStr q
  | .str s => escapeJsonStr s
  | .arr xs => '[' :: stringifyArrBody xs ++ [']']
  | .obj xs => Char.ofNat 123 :: stringifyObjBody xs ++ [Char.ofNat 125]
/-- Comma-joined serialized elements. -/
def stringifyArrBody : JsonArr → Str
  | .nil => []
  | .cons h .nil => jsonStringify h
  | .cons h (.cons h2 t) =>
    jsonStringify h ++ ',' :: stringifyArrBody (.cons h2 t)
/-- Comma-joined serialized members. -/
def stringifyObjBody : JsonObj → Str
  | .nil => []
  | .cons k v .nil => escapeJsonStr k ++ ':' :: jsonStringify v
  | .cons k v (.cons k2 v2 t) =>
    escapeJsonStr k ++ ':' :: jsonStringify v ++
      ',' :: stringifyObjBody (.cons k2 v2 t)
end

/- ------------------------------------------------------------------
   deepresearch.ts: safeJson; messages.ts: parseJSON (claim C8).
   ------------------------------------------------------------------ -/

/-- Leading code-fence strip, `replace(/^```[a-zA-Z]*\n?/, "")`. -/
def stripFenceLead (t : Str) : Str :=
  if ("```".toList).isPrefixOf t then
    let r1 := (t.drop 3).dropWhile isAsciiAlpha
    match r1 with
    | '\n' :: r2 => r2
    | r2 => r2
  else t

/-- Trailing code-fence strip, `replace(/```$/, "")`. -/
def stripFenceTrail (t : Str) : Str :=
  if ("```".toList).isSuffixOf t then t.take (t.length - 3) else t

/-- Trim-and-unfence step of `safeJson` (deepresearch.ts lines
1149-1152): fences are stripped only when the trimmed text starts with
one. -/
def safeJsonUnwrap (s : Str) : Str :=
  let t := jsTrim s
  if ("```".toList).isPrefixOf t then stripFenceTrail (stripFenceLead t)
  else t

/-- Source `deepresearch.ts` lines 1147-1157 (`safeJson`): fence strip,
one direct `JSON.parse`, and `{}` on failure — there is no
brace-substring extraction step here. -/
def safeJson (s : Str) : Json :=
  match jsonParse (safeJsonUnwrap s) with
  | some v => v
  | none => Json.obj .nil

/-- Index of the first occurrence of a character. -/
def charIndexOf (s : Str) (c : Char) : Option Nat := s.findIdx? (· = c)

/-- Index of the last occurrence of a character. -/
def charLastIndexOf (s : Str) (c : Char) : Option Nat :=
  match (s.reverse).findIdx? (· = c) with
  | some i => some (s.length - 1 - i)
  | none => none

/-- Source `messages.ts` lines 416-439 (`parseJSON`): like `safeJson`
but, when the direct parse fails, it additionally tries the substring
between the first opening and last closing brace before giving up. -/
def parseJSON (s : Str) : Json :=
  let t := jsTrim s
  if t = [] then Json.obj .nil
  else
    let unwrapped :=
      if ("```".toList).isPrefixOf t then stripFenceTrail (stripFenceLead t)
      else t
    match jsonParse unwrapped with
    | some v => v
    | none =>
      match charIndexOf unwrapped (Char.ofNat 123),
          charLastIndexOf unwrapped (Char.ofNat 125) with
      | some first, some last =>
        if first < last then
          match jsonParse (jsSlice unwrapped first (last + 1)) with
          | some v => v
          | none => Json.obj .nil
        else Json.obj .nil
      | _, _ => Json.obj .nil

/- ------------------------------------------------------------------
   types.ts: VerifyClaimsResponseSchema and the verify-stage parse
   pipeline (claim C8).
   ------------------------------------------------------------------ -/

/-- Claim categories (`ClaimTypeSchema`, types.ts lines 8-15). -/
inductive ClaimType where
  | quant | causal | definition | opinion | other
  deriving DecidableEq

/-- Evidence entry of a verified claim (types.ts lines 145-155). -/
structure VEvidence where
  sourceId : Str
  chunkId : Option Str
  quote : Str
  charStart : Option Nat
  charEnd : Option Nat
  deriving DecidableEq

/-- Verified claim (`VerifiedClaimSchema`, types.ts lines 139-157). -/
structure VerifiedClaim where
  text : Str
  claimType : ClaimType
  supportScore : Rat
  contradicted : Bool
  uncertaintyReason : Option Str
  evidence : List VEvidence
  deriving DecidableEq

/-- Verify response (`VerifyClaimsResponseSchema`, types.ts
lines 160-162). -/
structure VerifyClaimsResponse where
  claims : List VerifiedClaim
  deriving DecidableEq

/-- Zod `z.string()`. -/
def zString : Json → Option Str
  | .str s => some s
  | _ => none

/-- Zod `z.boolean()`. -/
def zBool : Json → Option Bool
  | .bool b => some b
  | _ => none

/-- Zod `ClaimTypeSchema` (an enum of five strings). -/
def zClaimType : Json → Option ClaimType
  | .str s =>
    if s = "quant".toList then some .quant
    else if s = "causal".toList then some .causal
    else if s = "definition".toList then some .definition
    else if s = "opinion".toList then some .opinion
    else if s = "other".toList then some .other
    else none
  | _ => none

/-- Zod `z.number().min(0).max(1)`. -/
def zScore : Json → Option Rat
  | .num q => if 0 ≤ q ∧ q ≤ 1 then some q else none
  | _ => none

/-- Zod `z.number().int().nonnegative()`. -/
def zNonnegInt : Json → Option Nat
  | .num q => if q.den = 1 ∧ 0 ≤ q.num then some q.num.toNat else none
  | _ => none

/-- Zod `.optional()` on an object field: an absent key parses to
`none`; a present value must satisfy the inner schema. -/
def zOptField (o : JsonObj) (k : Str) (p : Json → Option α) :
    Option (Option α) :=
  match objGet o k with
  | none => some none
  | some v => (p v).map some

/-- Zod evidence object schema (types.ts lines 146-155). -/
def zEvidence (j : Json) : Option VEvidence :=
  match j with
  | .obj o => do
    let sourceId ← (objGet o ("sourceId".toList)).bind zString
    let chunkId ← zOptField o ("chunkId".toList) zString
    let quote ← (objGet o ("quote".toList)).bind zString
    let charStart ← zOptField o ("charStart".toList) zNonnegInt
    let charEnd ← zOptField o ("charEnd".toList) zNonnegInt
    pure ⟨sourceId, chunkId, quote, charStart, charEnd⟩
  | _ => none

/-- Element-wise parse of an evidence array. -/
def zEvidenceArr : JsonArr → Option (List VEvidence)
  | .nil => some []
  | .cons h t => do
    let e ← zEvidence h
    let r ← zEvidenceArr t
    pure (e :: r)

/-- Zod `VerifiedClaimSchema` (types.ts lines 139-157); `evidence` has
`.default([])`. -/
def zVerifiedClaim (j : Json) : Option VerifiedClaim :=
  match j with
  | .obj o => do
    let text ← (objGet o ("text".toList)).bind zString
    let ct ← (objGet o ("claimType".toList)).bind zClaimType
    let score ← (objGet o ("supportScore".toList)).bind zScore
    let contradicted ← (objGet o ("contradicted".toList)).bind zBool
    let ur ← zOptField o ("uncertaintyReason".toList) zString
    let ev ←
      (match objGet o ("evidence".toList) with
        | none => some []
        | some (.arr xs) => zEvidenceArr xs
        | some _ => none)
    pure ⟨text, ct, score, contradicted, ur, ev⟩
  | _ => none

/-- Element-wise parse of the claims array. -/
def zClaimsArr : JsonArr → Option (List VerifiedClaim)
  | .nil => some []
  | .cons h t => do
    let c ← zVerifiedClaim h
    let r ← zClaimsArr t
    pure (c :: r)

/-- Zod `VerifyClaimsResponseSchema.safeParse`. -/
def zVerifyClaimsResponse (j : Json) : Option VerifyClaimsResponse :=
  match j with
  | .obj o =>
    match objGet o ("claims".toList) with
    | some (.arr xs) => (zClaimsArr xs).map VerifyClaimsResponse.mk
    | _ => none
  | _ => none

/-- Verify-stage result from the raw LLM text (deepresearch.ts lines
597-601): `safeJson`, then `VerifyClaimsResponseSchema.safeParse`, with
`{claims: []}` whenever either step fails. -/
def verifyParseResult (llmText : Str) : VerifyClaimsResponse :=
  match zVerifyClaimsResponse (safeJson llmText) with
  | some v => v
  | none => ⟨[]⟩

/-- The same pipeline routed through `messages.ts`'s `parseJSON` — the
parser the claim describes, with brace-substring extraction. -/
def verifyParseViaParseJSON (llmText : Str) : VerifyClaimsResponse :=
  match zVerifyClaimsResponse (parseJSON llmText) with
  | some v => v
  | none => ⟨[]⟩

/-- Concrete verify-stage LLM output: valid JSON wrapped in prose, so
the direct parse fails but the largest-brace-substring parse succeeds. -/
def verifyLlmOutC8 : Str :=
  ("Verification notes: \x7b\"claims\":[\x7b\"text\":\"Iron melts\"," ++
   "\"claimType\":\"other\",\"supportScore\":1,\"contradicted\":false\x7d]\x7d" ++
   " done.").toList

/- ------------------------------------------------------------------
   deepresearch.ts / types.ts: planSubqueries and PlanResponseSchema
   (claim C6).
   ------------------------------------------------------------------ -/

/-- Research depth (`DepthSchema`, types.ts line 5). -/
inductive Depth where
  | quick | normal | deep
  deriving DecidableEq

/-- The `maxSubqueries` value handed to `buildPlanPrompt`
(deepresearch.ts line 655) — prompt guidance only; the prompts module
itself annotates it "guidance only; model may return <= this". -/
def maxSubqueriesFor : Depth → Nat
  | .deep => 6
  | .quick => 3
  | .normal => 4

/-- Optional time range of a plan (types.ts lines 122-128); `fromS` and
`toS` stand for the JSON keys `from` and `to`. -/
structure TimeRangeJ where
  fromS : Option Str
  toS : Option Str
  deriving DecidableEq

/-- Constraints of a plan (types.ts lines 120-133): each field is
optional and nullable, hence doubly optional here. -/
structure PlanConstraints where
  timeRange : Option (Option TimeRangeJ)
  region : Option (Option Str)
  allowedDomains : Option (Option (List Str))
  disallowedDomains : Option (Option (List Str))
  deriving DecidableEq

/-- Parsed plan (`PlanResponseSchema`, types.ts lines 116-134). -/
structure PlanResponse where
  intent : Str
  subqueries : List Str
  focus : List Str
  constraints : PlanConstraints
  deriving DecidableEq

/-- Zod `.nullable()`: `null` parses to an explicit `none`. -/
def zNullable (p : Json → Option α) : Json → Option (Option α)
  | .null => some none
  | j => (p j).map some

/-- Element-wise parse of `z.array(z.string())`. -/
def zStrArr : JsonArr → Option (List Str)
  | .nil => some []
  | .cons h t => do
    let s ← zString h
    let r ← zStrArr t
    pure (s :: r)

/-- Zod time-range object schema. -/
def zTimeRange (j : Json) : Option TimeRangeJ :=
  match j with
  | .obj o => do
    let f ← zOptField o ("from".toList) zString
    let t ← zOptField o ("to".toList) zString
    pure ⟨f, t⟩
  | _ => none

/-- Zod string-array-or-null field. -/
def zStrArrJ (j : Json) : Option (List Str) :=
  match j with
  | .arr xs => zStrArr xs
  | _ => none

/-- Zod constraints object schema (types.ts lines 120-133). -/
def zPlanConstraints (j : Json) : Option PlanConstraints :=
  match j with
  | .obj o => do
    let tr ← zOptField o ("timeRange".toList) (zNullable zTimeRange)
    let rg ← zOptField o ("region".toList) (zNullable zString)
    let ad ← zOptField o ("allowedDomains".toList) (zNullable zStrArrJ)
    let dd ← zOptField o ("disallowedDomains".toList) (zNullable zStrArrJ)
    pure ⟨tr, rg, ad, dd⟩
  | _ => none

/-- Zod `PlanResponseSchema.safeParse` (types.ts lines 116-134): note
`subqueries` has `.min(1)` but no upper bound, `focus` defaults to `[]`
and `constraints` defaults to `{}`. -/
def zPlanResponse (j : Json) : Option PlanResponse :=
  match j with
  | .obj o => do
    let intent ← (objGet o ("intent".toList)).bind zString
    let sqs ←
      (match objGet o ("subqueries".toList) with
        | some (.arr xs) => zStrArr xs
        | _ => none)
    if sqs.length < 1 then none
    else do
      let focus ←
        (match objGet o ("focus".toList) with
          | none => some []
          | some v => zStrArrJ v)
      let cs ←
        (match objGet o ("constraints".toList) with
          | none => zPlanConstraints (Json.obj .nil)
          | some v => zPlanConstraints v)
      pure ⟨intent, sqs, focus, cs⟩
  | _ => none

/-- Per-element normalization of `raw.subqueries`
(deepresearch.ts lines 669-682): strings pass, objects contribute their
`query`/`text`/`q` string field, everything else maps to null. -/
def normSubqueryElem (x : Json) : Option Str :=
  match x with
  | .str s => some s
  | .obj o =>
    (match objGet o ("query".toList) with
      | some (.str s) => some s
      | _ =>
        match objGet o ("text".toList) with
        | some (.str s) => some s
        | _ =>
          match objGet o ("q".toList) with
          | some (.str s) => some s
          | _ => none)
  | _ => none

/-- Map-and-filter of the normalization: keep the extracted strings with
non-empty trim. -/
def collectSubqueries : JsonArr → List Str
  | .nil => []
  | .cons h t =>
    match normSubqueryElem h with
    | some s =>
      if 0 < (jsTrim s).length then s :: collectSubqueries t
      else collectSubqueries t
    | none => collectSubqueries t

/-- Source `deepresearch.ts` lines 668-683: rewrite `raw.subqueries` in
place when it is an array; leave `raw` alone otherwise. -/
def normalizeRawSubqueries (j : Json) : Json :=
  match j with
  | .obj o =>
    (match objGet o ("subqueries".toList) with
      | some (.arr xs) =>
        Json.obj (objInsert ("subqueries".toList)
          (Json.arr (listToArr ((collectSubqueries xs).map Json.str))) o)
      | _ => j)
  | _ => j

/-- Naive fallback plan (deepresearch.ts lines 688-698); the optional
request fields (timeRange, region, domain lists) are modelled as absent,
so each `?? null` produces an explicit null. -/
def fallbackPlan (question : Str) : PlanResponse :=
  ⟨question, [question], [], ⟨some none, some none, some none, some none⟩⟩

/-- Source `deepresearch.ts` lines 666-701 (`planSubqueries` after the
LLM call): `safeJson`, subquery normalization, schema parse with naive
fallback, and a final guarantee of at least one subquery.  No truncation
of the parsed list happens anywhere. -/
def planFromJson (question : Str) (raw : Json) : PlanResponse :=
  match zPlanResponse (normalizeRawSubqueries raw) with
  | none => fallbackPlan question
  | some p =>
    if p.subqueries = [] then { p with subqueries := [question] } else p

/-- Plan computed from the raw LLM text. -/
def planSubqueriesProcess (question llmText : Str) : PlanResponse :=
  planFromJson question (safeJson llmText)

/-- Subqueries the orchestrator searches with after the plan stage:
`deepResearch` iterates `plan.subqueries` verbatim
(`mapLimit(plan.subqueries, 3, …)`, deepresearch.ts line 136). -/
def searchedSubqueries (question llmText : Str) : List Str :=
  (planSubqueriesProcess question llmText).subqueries

/-- A plan-stage LLM response with seven subqueries — more than the
"deep" cap of six — which `PlanResponseSchema` accepts unchanged. -/
def planLlmOut7 : Str :=
  ("\x7b\"intent\":\"overview\",\"subqueries\":[\"q1\",\"q2\",\"q3\"," ++
   "\"q4\",\"q5\",\"q6\",\"q7\"]\x7d").toList

/- ------------------------------------------------------------------
   sse.ts: formatEvent and createSSEDecoder (claim C9).
   ------------------------------------------------------------------ -/

/-- `SSESendOptions` (sse.ts lines 13-18); `retry` is a JS number,
modelled as a rational. -/
structure SSESendOpts where
  id : Option Str
  retry : Option Rat
  event : Option Str
  raw : Bool
  deriving DecidableEq

/-- Scanner for `replace(/[\r\n]+/g, " ")` (`collapseNewlines`,
sse.ts lines 341-343). -/
def collapseCrLfRuns : Str → Bool → Str
  | [], _ => []
  | c :: r, inRun =>
    if c = Char.ofNat 13 ∨ c = '\n' then
      (if inRun then collapseCrLfRuns r true else ' ' :: collapseCrLfRuns r true)
    else c :: collapseCrLfRuns r false

/-- `sanitizeLine` (sse.ts lines 336-339). -/
def sanitizeLine (s : Str) : Str := collapseCrLfRuns s false

/-- Split on `/\r?\n/` (payload line split of `formatEvent`). -/
def splitLinesCRLF : Str → Str → List Str
  | [], cur => [cur.reverse]
  | '\r' :: '\n' :: rest, cur => cur.reverse :: splitLinesCRLF rest []
  | '\n' :: rest, cur => cur.reverse :: splitLinesCRLF rest []
  | c :: rest, cur => splitLinesCRLF rest (c :: cur)

/-- `Array.prototype.join('\n')`. -/
def joinNl : List Str → Str
  | [] => []
  | [x] => x
  | x :: y :: t => x ++ '\n' :: joinNl (y :: t)

/-- Source `sse.ts` lines 84-125 (`formatEvent`): optional `id`,
`retry` and `event` lines, `data:` lines from the JSON payload split on
newlines, and a final empty line — so that `lines.join('\n')` ends the
serialized event with a single `'\n'`, not with a blank line. -/
def formatEvent (o : SSESendOpts) (data : Option Json) : Str :=
  let idLines :=
    match o.id with
    | some i => if i ≠ [] then [("id: ".toList) ++ sanitizeLine i] else []
    | none => []
  let retryLines :=
    match o.retry with
    | some q => if 0 ≤ q then [("retry: ".toList) ++ intToStr q.floor] else []
    | none => []
  let eventLines :=
    match o.event with
    | some e => if e ≠ [] then [("event: ".toList) ++ sanitizeLine e] else []
    | none => []
  let payload : Str :=
    match o.raw, data with
    | true, some (.str s) => s
    | _, none => []
    | _, some v => jsonStringify v
  let dataLines :=
    if payload ≠ [] then
      (splitLinesCRLF payload []).map (fun ln => ("data: ".toList) ++ ln)
    else [("data:".toList)]
  joinNl (idLines ++ retryLines ++ eventLines ++ dataLines ++ [[]])

/-- Scanner for `replace(/\r\n/g, '\n').replace(/\r/g, '\n')`
(sse.ts line 252). -/
def normNl : Str → Str
  | [] => []
  | '\r' :: '\n' :: rest => '\n' :: normNl rest
  | '\r' :: rest => '\n' :: normNl rest
  | c :: rest => c :: normNl rest

/-- Split the buffer at each first occurrence of `"\n\n"` (the
`while ((idx = buffer.indexOf('\n\n')) !== -1)` loop): complete blocks
plus the unconsumed remainder. -/
def splitBlocks : Str → Str → (List Str × Str)
  | [], cur => ([], cur.reverse)
  | '\n' :: '\n' :: rest, cur =>
    let r := splitBlocks rest []
    (cur.reverse :: r.1, r.2)
  | c :: rest, cur => splitBlocks rest (c :: cur)

/-- Split a block into lines at `'\n'`. -/
def splitOnNl : Str → Str → List Str
  | [], cur => [cur.reverse]
  | '\n' :: rest, cur => cur.reverse :: splitOnNl rest []
  | c :: rest, cur => splitOnNl rest (c :: cur)

/-- `value.replace(/^ /, '')` — strip one leading space. -/
def stripOneSpace : Str → Str
  | ' ' :: r => r
  | s => s

/-- JavaScript `Number.parseInt(s, 10)`: skip leading whitespace, read
an optional sign and a digit run; `none` models NaN. -/
def parseIntJs (s : Str) : Option Int :=
  let t := s.dropWhile isJsSpace
  let (neg, t2) :=
    match t with
    | '-' :: r => (true, r)
    | '+' :: r => (false, r)
    | r => (false, r)
  let ds := t2.takeWhile isAsciiDigit
  if ds = [] then none
  else
    let v : Int := (digitsToNat ds 0 : Nat)
    some (if neg then -v else v)

/-- Decoded `data` of an SSE event: JSON-parsed when possible, the raw
joined string otherwise, or absent. -/
inductive SSEData where
  | json (j : Json)
  | raw (s : Str)
  | undef
  deriving DecidableEq

/-- `DecodedSSE` (sse.ts lines 222-228). -/
structure DecodedSSE where
  event : Str
  data : SSEData
  id : Option Str
  retry : Option Int
  comment : Option Str
  deriving DecidableEq

/-- Per-block parser state of the decoder loop (sse.ts lines 264-302). -/
structure BlockAcc where
  eventName : Option Str
  id : Option Str
  retry : Option Int
  dataLines : List Str
  commentText : Option Str
  deriving DecidableEq

/-- One line of the block parser (sse.ts lines 271-302). -/
def procLine (acc : BlockAcc) (line : Str) : BlockAcc :=
  if line = [] then acc
  else if line.head? = some ':' then
    let c := jsTrimStart (line.drop 1)
    { acc with commentText :=
        match acc.commentText with
        | some old => some (old ++ '\n' :: c)
        | none => some c }
  else
    let sep := charIndexOf line ':'
    let field := match sep with | none => line | some i => line.take i
    let value :=
      match sep with
      | none => []
      | some i => stripOneSpace (line.drop (i + 1))
    if field = ("event".toList) then { acc with eventName := some value }
    else if field = ("data".toList) then
      { acc with dataLines := acc.dataLines ++ [value] }
    else if field = ("id".toList) then { acc with id := some value }
    else if field = ("retry".toList) then
      (match parseIntJs value with
        | some n => { acc with retry := some n }
        | none => acc)
    else acc

/-- `tryParseJSON` (sse.ts lines 345-351). -/
def tryParseJSON (s : Str) : SSEData :=
  match jsonParse s with
  | some v => .json v
  | none => .raw s

/-- Decode one complete block (sse.ts lines 262-316). -/
def decodeBlock (block : Str) : DecodedSSE :=
  let acc := (splitOnNl block []).foldl procLine ⟨none, none, none, [], none⟩
  let joined := joinNl acc.dataLines
  let parsed := if joined ≠ [] then tryParseJSON joined else .undef
  let ev :=
    match acc.eventName with
    | some e => if e = [] then ("message".toList) else e
    | none => ("message".toList)
  ⟨ev, parsed, acc.id, acc.retry, acc.commentText⟩

/-- Source `sse.ts` lines 245-320 (`createSSEDecoder().push`), as a
function of the buffered state: append the chunk, normalize newlines,
emit every block terminated by a blank line, and keep the rest
buffered.  The stored buffer never contains `'\r'`, so normalizing the
concatenation equals the source's incremental normalization. -/
def decoderPush (buffer chunk : Str) : List DecodedSSE × Str :=
  if chunk = [] then ([], buffer)
  else
    let b := normNl (buffer ++ chunk)
    let r := splitBlocks b []
    ((r.1.filter (fun bl => jsTrim bl ≠ [])).map decodeBlock, r.2)

/-- Source `sse.ts` lines 323-329 (`createSSEDecoder().flush`): the
residual buffer is saved, the buffer is cleared, and then `push('\n\n')`
runs — on the already-cleared buffer, so the residual content is
discarded and the call always returns no events. -/
def decoderFlush (buffer : Str) : List DecodedSSE × Str :=
  if jsTrim buffer = [] then ([], [])
  else decoderPush [] ("\n\n".toList)

/-- The writer's bytes for a `token` event with payload `"hi"`
(`sse.send("hi", { event: "token" })`). -/
def tokenEventBytes : Str :=
  formatEvent ⟨none, none, some ("token".toList), false⟩
    (some (Json.str ("hi".toList)))

/- ------------------------------------------------------------------
   deepsearch.ts: canonicalizeUrl (claim C4).
   ------------------------------------------------------------------ -/

/-- Parsed WHATWG URL state, at the level `canonicalizeUrl` manipulates
it (scheme, host, port, pathname, decoded search parameters, fragment;
credentials are untouched by the function and omitted).  The source
operates on a `URL` object and re-serializes it; serializing and
re-parsing a WHATWG URL is the identity on these components, so the
record-level function below is the faithful counterpart of the
string-level one. -/
structure UrlRecord where
  scheme : Str
  host : Str
  port : Str
  path : Str
  query : List (Str × Str)
  fragment : Str
  deriving DecidableEq

/-- Tracking-parameter test of `canonicalizeUrl`
(deepsearch.ts lines 445-458), on the lower-cased key. -/
def isTrackingKey (k : Str) : Bool :=
  let lk := k.map jsToLower
  ("utm_".toList).isPrefixOf lk ||
  lk == ("gclid".toList) || lk == ("fbclid".toList) ||
  lk == ("mc_cid".toList) || lk == ("mc_eid".toList) ||
  lk == ("ref".toList) || lk == ("ref_src".toList)

/-- Model of `a.localeCompare(b) ≤ 0`: lexicographic comparison by code
point (the default-locale collation agrees with it on the ASCII query
keys this code sees). -/
def lexLe : Str → Str → Bool
  | [], _ => true
  | _ :: _, [] => false
  | a :: as, b :: bs =>
    if a.toNat < b.toNat then true
    else if b.toNat < a.toNat then false
    else lexLe as bs

/-- Stable insertion of a parameter before the first not-smaller key. -/
def insertParam (p : Str × Str) : List (Str × Str) → List (Str × Str)
  | [] => [p]
  | q :: qs => if lexLe p.1 q.1 then p :: q :: qs else q :: insertParam p qs

/-- Stable ascending sort of the query parameters by key
(`Array.prototype.sort` with `([a], [b]) => a.localeCompare(b)` is
stable; insertion sort realizes the same result). -/
def sortParams : List (Str × Str) → List (Str × Str)
  | [] => []
  | p :: ps => insertParam p (sortParams ps)

/-- `url.pathname.endsWith("/")`. -/
def endsWithSlash (p : Str) : Bool := p.getLast? == some '/'

/-- `replace(/\/+$/, "")`. -/
def dropTrailingSlashes (p : Str) : Str :=
  (p.reverse.dropWhile (· = '/')).reverse

/-- Pathname step of `canonicalizeUrl` (deepsearch.ts lines 465-466). -/
def canonPath (p : Str) : Str :=
  if endsWithSlash p ∧ p ≠ ("/".toList) then dropTrailingSlashes p else p

/-- Source `deepsearch.ts` lines 440-473 (`canonicalizeUrl`): clear the
fragment, delete tracking parameters, re-append the remaining parameters
sorted by key, trim trailing slashes off non-root pathnames, and
lower-case protocol and hostname. -/
def canonicalizeUrl (u : UrlRecord) : UrlRecord :=
  { scheme := u.scheme.map jsToLower
    host := u.host.map jsToLower
    port := u.port
    path := canonPath u.path
    query := sortParams (u.query.filter fun p => !isTrackingKey p.1)
    fragment := [] }

/- ------------------------------------------------------------------
   text.ts: splitParagraphs / splitIntoWindows; deepresearch.ts:
   ingestUrl window configuration (claim C2).
   ------------------------------------------------------------------ -/

/-- Scanner equivalent to the `/\n{2,}/g` loop of `splitParagraphs`
(text.ts lines 152-169): `pos` is the index of the current character,
`start` the start of the paragraph being read, `k` the number of
newline characters immediately before `pos`.  A run of two or more
newlines ends a paragraph (pushed only when non-empty); a single
newline stays inside its paragraph. -/
def pScan : Str → Nat → Nat → Nat → List (Nat × Nat)
  | [], pos, start, k =>
    if 2 ≤ k then (if start < pos - k then [(start, pos - k)] else [])
    else (if start < pos then [(start, pos)] else [])
  | c :: rest, pos, start, k =>
    if c = '\n' then pScan rest (pos + 1) start (k + 1)
    else if 2 ≤ k then
      (if start < pos - k then [(start, pos - k)] else []) ++
        pScan rest (pos + 1) pos 0
    else pScan rest (pos + 1) start 0

/-- Source `text.ts` lines 152-169 (`splitParagraphs`), as the list of
`(start, end)` index pairs; each paragraph's `text` is
`s.slice(start, end)` by construction in the source. -/
def splitParagraphs (s : Str) : List (Nat × Nat) := pScan s 0 0 0

/-- A window of `splitIntoWindows` (text.ts lines 13-18). -/
structure Window where
  text : Str
  charStart : Nat
  charEnd : Nat
  approxTokens : Nat
  deriving DecidableEq

/-- Paragraph-accumulation loop of `splitIntoWindows` with the
ingestion configuration (text.ts lines 98-133): `targetChars = 4000`
(`Math.floor(1000 * 4)`) and `overlapChars = 600`
(`Math.floor(4000 * 0.15)` — the double product is `600.0000000000001`,
whose floor is 600).  State: remaining paragraphs, `buf`, `bufStart`,
`lastEnd`, and the windows pushed so far. -/
def winLoop (s : Str) : List (Nat × Nat) → Str → Nat → Nat → List Window →
    List Window
  | [], buf, bufStart, lastEnd, acc =>
    acc ++ (if buf ≠ [] then [⟨buf, bufStart, lastEnd, estimateTokens buf⟩]
            else [])
  | p :: ps, buf, bufStart, lastEnd, acc =>
    if 4000 < (buf ++ ((if buf = [] then [] else ('\n' :: '\n' :: [])) ++
        jsSlice s p.1 p.2)).length ∧ buf ≠ [] then
      winLoop s ps
        (jsSlice s (max bufStart (lastEnd - 600)) lastEnd ++
          '\n' :: '\n' :: jsSlice s p.1 p.2)
        (max bufStart (lastEnd - 600)) p.2
        (acc ++ [⟨buf, bufStart, lastEnd, estimateTokens buf⟩])
    else
      winLoop s ps
        (buf ++ ((if buf = [] then [] else ('\n' :: '\n' :: [])) ++
          jsSlice s p.1 p.2))
        (if bufStart = 0 ∧
            (buf ++ ((if buf = [] then [] else ('\n' :: '\n' :: [])) ++
              jsSlice s p.1 p.2)) ≠ [] then p.1
         else bufStart)
        p.2 acc

/-- Source `text.ts` lines 74-150 (`splitIntoWindows`) with the options
passed by `ingestUrl` (deepresearch.ts lines 765-770: `targetTokens:
1000, overlapRatio: 0.15, charsPerToken: 4, respectParagraphs: true`):
short texts yield a single whole-text window, longer texts go through
the paragraph loop seeded with the first paragraph's start. -/
def splitIntoWindowsIngest (s : Str) : List Window :=
  if s = [] ∨ s.length ≤ 4000 then [⟨s, 0, s.length, estimateTokens s⟩]
  else
    let paras := splitParagraphs s
    let init := match paras with | [] => 0 | p :: _ => p.1
    winLoop s paras [] init init []

/-- Failing input for the chunk-offset invariant: three paragraphs of
2000, 1900 and 500 characters separated by exactly `"\n\n"`. -/
def sBug : Str :=
  List.replicate 2000 'a' ++
    '\n' :: '\n' :: (List.replicate 1900 'b' ++
      '\n' :: '\n' :: List.replicate 500 'c')

/- ==================================================================
   Theorems.
   ================================================================== -/

/- ---------------- helper lemmas: bitLen / jsFloorMul07 ------------- -/

theorem bitLenAux_spec (f : Nat) : ∀ n : Nat, n ≤ f →
    (1 ≤ n → 2 ^ (bitLenAux f n - 1) ≤ n ∧ n < 2 ^ bitLenAux f n) := by
  induction f with
  | zero => intro n hn h1; omega
  | succ f ih =>
    intro n hn h1
    have hne : ¬ n = 0 := by omega
    simp only [bitLenAux, hne, if_false]
    rcases Nat.lt_or_ge n 2 with h2 | h2
    · have hn1 : n = 1 := by omega
      subst hn1
      have hhalf : (1 : Nat) / 2 = 0 := by decide
      have hz : bitLenAux f 0 = 0 := by cases f <;> simp [bitLenAux]
      rw [hhalf, hz]
      constructor <;> simp
    · have hd1 : 1 ≤ n / 2 := by omega
      have hdf : n / 2 ≤ f := by omega
      obtain ⟨hlo, hhi⟩ := ih (n / 2) hdf hd1
      constructor
      · have hb1 : 1 ≤ bitLenAux f (n / 2) := by
          by_contra hb
          have : bitLenAux f (n / 2) = 0 := by omega
          rw [this] at hhi
          omega
        have : bitLenAux f (n / 2) + 1 - 1 = (bitLenAux f (n / 2) - 1) + 1 := by
          omega
        rw [this, pow_succ]
        have := Nat.div_add_mod n 2
        have hmod : n % 2 < 2 := Nat.mod_lt _ (by omega)
        calc 2 ^ (bitLenAux f (n / 2) - 1) * 2 ≤ (n / 2) * 2 := by
              exact Nat.mul_le_mul_right 2 hlo
          _ ≤ n := by omega
      · rw [pow_succ]
        have := Nat.div_add_mod n 2
        have hmod : n % 2 < 2 := Nat.mod_lt _ (by omega)
        calc n = (n / 2) * 2 + n % 2 := by omega
          _ < (n / 2) * 2 + 2 := by omega
          _ = ((n / 2) + 1) * 2 := by ring
          _ ≤ 2 ^ bitLenAux f (n / 2) * 2 := by
              exact Nat.mul_le_mul_right 2 (by omega)

theorem bitLen_spec (n : Nat) (h1 : 1 ≤ n) :
    2 ^ (bitLen n - 1) ≤ n ∧ n < 2 ^ bitLen n :=
  bitLenAux_spec n n (Nat.le_refl n) h1

theorem roundMantissa_le (v : Nat) (h1 : 1 ≤ v) :
    roundMantissa v ≤ v + v / 2 ^ 52 := by
  unfold roundMantissa
  by_cases hb : bitLen v ≤ 53
  · simp [hb]
  · simp only [hb, if_false]
    set d := bitLen v - 53 with hd
    have hq2 : (if 2 ^ (d - 1) < v % 2 ^ d ||
        (v % 2 ^ d == 2 ^ (d - 1) && v / 2 ^ d % 2 == 1) then
        v / 2 ^ d + 1 else v / 2 ^ d) ≤ v / 2 ^ d + 1 := by
      split <;> omega
    have hstep : (if 2 ^ (d - 1) < v % 2 ^ d ||
        (v % 2 ^ d == 2 ^ (d - 1) && v / 2 ^ d % 2 == 1) then
        v / 2 ^ d + 1 else v / 2 ^ d) * 2 ^ d ≤ (v / 2 ^ d + 1) * 2 ^ d :=
      Nat.mul_le_mul_right _ hq2
    refine le_trans hstep ?_
    have hdiv : v / 2 ^ d * 2 ^ d ≤ v := Nat.div_mul_le_self v _
    have hpow : 2 ^ d ≤ v / 2 ^ 52 := by
      have hlo := (bitLen_spec v h1).1
      have hbl : 54 ≤ bitLen v := by omega
      have hsplit : bitLen v - 1 = d + 52 := by omega
      rw [hsplit, pow_add] at hlo
      exact (Nat.le_div_iff_mul_le (by norm_num : (0 : Nat) < 2 ^ 52)).2 hlo
    calc (v / 2 ^ d + 1) * 2 ^ d = v / 2 ^ d * 2 ^ d + 2 ^ d := by ring
      _ ≤ v + v / 2 ^ 52 := by omega

theorem jsFloorMul07_lt (n : Nat) (h1 : 1 ≤ n) : jsFloorMul07 n < n := by
  unfold jsFloorMul07
  have hv1 : 1 ≤ n * 3152519739159347 := by
    have := Nat.mul_pos (show 0 < n by omega)
      (show 0 < 3152519739159347 by norm_num)
    omega
  have hle := roundMantissa_le (n * 3152519739159347) hv1
  have hdivle : n * 3152519739159347 / 2 ^ 52 ≤ n := by
    have h1' : n * 3152519739159347 ≤ n * 2 ^ 52 := by
      have : (3152519739159347 : Nat) ≤ 2 ^ 52 := by norm_num
      exact Nat.mul_le_mul_left n this
    calc n * 3152519739159347 / 2 ^ 52 ≤ n * 2 ^ 52 / 2 ^ 52 :=
          Nat.div_le_div_right h1'
      _ = n := Nat.mul_div_cancel n (by positivity)
  have hlt : roundMantissa (n * 3152519739159347) < n * 2 ^ 52 := by
    have : n * 3152519739159347 + n * 3152519739159347 / 2 ^ 52 <
        n * 2 ^ 52 := by
      have h2 : n * 3152519739159347 + n ≤ n * (3152519739159347 + 1) := by
        ring_nf
        omega
      have h3 : n * (3152519739159347 + 1) < n * 2 ^ 52 := by
        have hlt2 : (3152519739159347 + 1 : Nat) < 2 ^ 52 := by norm_num
        exact Nat.mul_lt_mul_of_pos_left hlt2 (by omega)
      omega
    omega
  exact Nat.div_lt_of_lt_mul (by
    calc roundMantissa (n * 3152519739159347) < n * 2 ^ 52 := hlt
      _ = 2 ^ 52 * n := by ring)

/- ---------------- C10 ------------------------------------------------ -/

/-- C10 counterexample: at `maxChars = 0` the claim's "length exactly
n + 3" fails: `shrinkChunkText "ab" 0` has length 5, not 3, because
`slice(-0)` returns the whole string. -/
theorem shrinkChunkText_len_counterexample :
    (shrinkChunkText ("ab".toList) 0).length ≠ 0 + 3 := by decide

/-- C10 (amended): for `maxChars ≥ 1` and `|t| > maxChars`,
`shrinkChunkText` returns the `Math.floor(0.7·n)`-code-unit head (under
IEEE double arithmetic), the line `"\n…\n"`, and the `(n - head)`-code-unit
tail, and the result has length exactly `n + 3` — in particular it
exceeds `n`. -/
theorem shrinkChunkText_spec (t : Str) (n : Nat) (h1 : 1 ≤ n)
    (h2 : n < t.length) :
    shrinkChunkText t n =
      t.take (jsFloorMul07 n) ++ ('\n' :: '…' :: '\n' :: []) ++
        t.drop (t.length - (n - jsFloorMul07 n)) ∧
    (shrinkChunkText t n).length = n + 3 := by
  have hne : ¬ (t = [] ∨ t.length ≤ n) := by
    rintro (h | h)
    · subst h; simp at h2
    · omega
  have hflt : jsFloorMul07 n < n := jsFloorMul07_lt n h1
  have htl : n - jsFloorMul07 n ≠ 0 := by omega
  constructor
  · unfold shrinkChunkText
    simp only [hne, if_false]
    unfold jsSliceNeg
    simp [htl]
  · unfold shrinkChunkText
    simp only [hne, if_false]
    unfold jsSliceNeg
    simp only [htl, if_false]
    simp only [List.length_append, List.length_take, List.length_drop,
      List.length_cons, List.length_nil]
    omega

/-- C10 witness: `shrinkChunkText "abcd" 2 = "a\n…\nd"`, of length 5. -/
theorem shrinkChunkText_spec_witness :
    (1 ≤ 2 ∧ 2 < ("abcd".toList).length) ∧
    (shrinkChunkText ("abcd".toList) 2 =
      ("abcd".toList).take (jsFloorMul07 2) ++ ('\n' :: '…' :: '\n' :: []) ++
        ("abcd".toList).drop (("abcd".toList).length - (2 - jsFloorMul07 2)) ∧
    (shrinkChunkText ("abcd".toList) 2).length = 2 + 3) :=
  ⟨⟨by decide, by decide⟩,
    shrinkChunkText_spec ("abcd".toList) 2 (by decide) (by decide)⟩

/- ---------------- C7 ------------------------------------------------- -/

theorem sumTokens_nil : sumTokens [] = 0 := rfl

theorem sumTokens_cons (c : ContextChunk) (l : List ContextChunk) :
    sumTokens (c :: l) = (estimateTokens c.text : Int) + sumTokens l := by
  simp [sumTokens]

theorem trimLoop_spec (maxT : Int) (cs : List ContextChunk) :
    ∀ used : Nat, (used : Int) ≤ maxT →
    trimLoop maxT cs used <+: cs ∧
    (used : Int) + sumTokens (trimLoop maxT cs used) ≤ maxT ∧
    (∀ c cs', cs.drop (trimLoop maxT cs used).length = c :: cs' →
      maxT < (used : Int) + sumTokens (trimLoop maxT cs used) +
        estimateTokens c.text) := by
  induction cs with
  | nil =>
    intro used hu
    refine ⟨List.prefix_refl _, by simpa [trimLoop, sumTokens_nil] using hu, ?_⟩
    intro c cs' h
    simp [trimLoop] at h
  | cons c0 rest ih =>
    intro used hu
    by_cases hbr : maxT < (used + estimateTokens c0.text : Int)
    · have hout : trimLoop maxT (c0 :: rest) used = [] := by
        simp [trimLoop, hbr]
      refine ⟨by simp [hout], ?_, ?_⟩
      · rw [hout, sumTokens_nil]; omega
      · intro c cs' h
        rw [hout] at h
        simp only [List.length_nil, List.drop_zero, List.cons.injEq] at h
        rw [hout, sumTokens_nil]
        rcases h with ⟨hc, hcs⟩
        subst hc
        omega
    · push_neg at hbr
      have hout : trimLoop maxT (c0 :: rest) used =
          c0 :: trimLoop maxT rest (used + estimateTokens c0.text) := by
        simp [trimLoop, not_lt.2 hbr]
      obtain ⟨hpre, hsum, hnext⟩ :=
        ih (used + estimateTokens c0.text) (by push_cast at hbr ⊢; omega)
      refine ⟨?_, ?_, ?_⟩
      · rw [hout]
        exact (List.prefix_cons_inj c0).mpr hpre
      · rw [hout, sumTokens_cons]
        push_cast at hsum ⊢
        omega
      · intro c cs' h
        rw [hout] at h ⊢
        simp only [List.length_cons, List.drop_succ_cons] at h
        have := hnext c cs' h
        rw [sumTokens_cons]
        push_cast at this ⊢
        omega

/-- C7: `trimChunksToBudget` returns `[]` on empty input; on non-empty
input it returns a non-empty prefix of the input, chosen in order, whose
summed `estimateTokens` stays within `max(300, budget - reserve)` and
which stops before the first chunk that would exceed the cap — except
that the first chunk alone is kept when even it exceeds the cap. -/
theorem trimChunksToBudget_spec (budget reserve : Int)
    (chunks : List ContextChunk) (c0 : ContextChunk)
    (rest : List ContextChunk) (hcs : chunks = c0 :: rest) :
    trimChunksToBudget [] budget reserve = [] ∧
    trimChunksToBudget chunks budget reserve ≠ [] ∧
    trimChunksToBudget chunks budget reserve <+: chunks ∧
    ((sumTokens (trimChunksToBudget chunks budget reserve) ≤
        effectiveCap budget reserve ∧
      (∀ c cs',
        chunks.drop (trimChunksToBudget chunks budget reserve).length =
          c :: cs' →
        effectiveCap budget reserve <
          sumTokens (trimChunksToBudget chunks budget reserve) +
            estimateTokens c.text)) ∨
     (trimChunksToBudget chunks budget reserve = [c0] ∧
      effectiveCap budget reserve < (estimateTokens c0.text : Int))) := by
  subst hcs
  have hcap : (0 : Int) ≤ effectiveCap budget reserve := by
    unfold effectiveCap
    exact le_trans (by norm_num) (le_max_left _ _)
  obtain ⟨hpre, hsum, hnext⟩ :=
    trimLoop_spec (effectiveCap budget reserve) (c0 :: rest) 0 (by simpa using hcap)
  refine ⟨rfl, ?_, ?_, ?_⟩
  · unfold trimChunksToBudget
    cases hlo : trimLoop (effectiveCap budget reserve) (c0 :: rest) 0 with
    | nil => simp
    | cons a b => simp
  · unfold trimChunksToBudget
    cases hlo : trimLoop (effectiveCap budget reserve) (c0 :: rest) 0 with
    | nil => simp
    | cons a b => rw [hlo] at hpre; simpa using hpre
  · cases hlo : trimLoop (effectiveCap budget reserve) (c0 :: rest) 0 with
    | nil =>
      right
      have hout : trimChunksToBudget (c0 :: rest) budget reserve = [c0] := by
        unfold trimChunksToBudget
        rw [hlo]
      refine ⟨hout, ?_⟩
      have := hnext c0 rest (by rw [hlo]; simp)
      rw [hlo] at this
      simpa [sumTokens_nil] using this
    | cons a b =>
      left
      have hout : trimChunksToBudget (c0 :: rest) budget reserve = a :: b := by
        unfold trimChunksToBudget
        rw [hlo]
      constructor
      · rw [hout, ← hlo]
        simpa using hsum
      · intro c cs' h
        rw [hout, ← hlo] at h ⊢
        have := hnext c cs' h
        simpa using this

/-- C7 witness: a single short chunk within a 1000-token budget. -/
theorem trimChunksToBudget_spec_witness :
    ([⟨[], none, ("hello world".toList)⟩] : List ContextChunk) =
      ⟨[], none, ("hello world".toList)⟩ :: [] ∧
    (trimChunksToBudget [] 1000 600 = [] ∧
     trimChunksToBudget [⟨[], none, ("hello world".toList)⟩] 1000 600 ≠ [] ∧
     trimChunksToBudget [⟨[], none, ("hello world".toList)⟩] 1000 600 <+:
       [⟨[], none, ("hello world".toList)⟩] ∧
     ((sumTokens (trimChunksToBudget [⟨[], none, ("hello world".toList)⟩]
          1000 600) ≤ effectiveCap 1000 600 ∧
       (∀ c cs',
         ([⟨[], none, ("hello world".toList)⟩] :
            List ContextChunk).drop
             (trimChunksToBudget [⟨[], none, ("hello world".toList)⟩]
               1000 600).length = c :: cs' →
         effectiveCap 1000 600 <
           sumTokens (trimChunksToBudget [⟨[], none, ("hello world".toList)⟩]
             1000 600) + estimateTokens c.text)) ∨
      (trimChunksToBudget [⟨[], none, ("hello world".toList)⟩] 1000 600 =
         [⟨[], none, ("hello world".toList)⟩] ∧
       effectiveCap 1000 600 <
         (estimateTokens (("hello world".toList) : Str) : Int)))) :=
  ⟨rfl, trimChunksToBudget_spec 1000 600 _ _ _ rfl⟩

/- ---------------- C1 ------------------------------------------------- -/

theorem tokenPayloadConcat_append (a b : List EmitEvent) :
    tokenPayloadConcat (a ++ b) =
      tokenPayloadConcat a ++ tokenPayloadConcat b := by
  simp [tokenPayloadConcat]

theorem tokenPayloadConcat_answer (t : Str) :
    tokenPayloadConcat [EmitEvent.answer t] = [] := rfl

theorem answerTexts_append (a b : List EmitEvent) :
    answerTexts (a ++ b) = answerTexts a ++ answerTexts b := by
  simp [answerTexts]

theorem answerTexts_answer (t : Str) :
    answerTexts [EmitEvent.answer t] = [t] := rfl

theorem buildAndStream_fold_inv (deltas : List Str) :
    ∀ (buf : Str) (n : Nat) (evs : List EmitEvent),
    (deltas.foldl buildAndStreamStep (buf, n, evs)).1 =
      buf ++ deltas.flatten ∧
    tokenPayloadConcat (deltas.foldl buildAndStreamStep (buf, n, evs)).2.2 =
      tokenPayloadConcat evs ++ deltas.flatten ∧
    answerTexts (deltas.foldl buildAndStreamStep (buf, n, evs)).2.2 =
      answerTexts evs ∧
    ((deltas.foldl buildAndStreamStep (buf, n, evs)).2.1 = n →
      deltas.flatten = []) := by
  induction deltas with
  | nil => intro buf n evs; simp
  | cons d ds ih =>
    intro buf n evs
    by_cases hd : d = []
    · subst hd
      simp only [List.foldl_cons, buildAndStreamStep, if_pos rfl]
      obtain ⟨h1, h2, h3, h4⟩ := ih buf n evs
      refine ⟨by simpa using h1, by simpa using h2, by simpa using h3, ?_⟩
      intro h
      simpa using h4 h
    · simp only [List.foldl_cons, buildAndStreamStep, if_neg hd]
      obtain ⟨h1, h2, h3, h4⟩ := ih (buf ++ d) (n + 1) (evs ++ [EmitEvent.token d])
      refine ⟨by simpa using h1, ?_, by simpa [answerTexts] using h3, ?_⟩
      · rw [h2]
        simp [tokenPayloadConcat]
      · intro h
        exfalso
        have := h4
        -- the counter is monotone: reaching n again from n+1 is impossible
        have hmono : ∀ (l : List Str) (st : Str × Nat × List EmitEvent),
            st.2.1 ≤ (l.foldl buildAndStreamStep st).2.1 := by
          intro l
          induction l with
          | nil => intro st; exact Nat.le_refl _
          | cons x xs ihx =>
            intro st
            refine le_trans ?_ (ihx (buildAndStreamStep st x))
            unfold buildAndStreamStep
            split <;> simp
        have hle := hmono ds (buf ++ d, n + 1, evs ++ [EmitEvent.token d])
        have hsnd : ((buf ++ d, n + 1, evs ++ [EmitEvent.token d]) :
            Str × Nat × List EmitEvent).2.1 = n + 1 := rfl
        rw [hsnd] at hle
        omega

/-- C1 counterexample: with the single stream delta `"Hello "`, the
concatenation of `token` payloads is `"Hello "` but the persisted
assistant content (and the `answer` event text) is the trimmed
`"Hello"`. -/
theorem buildAndStream_concat_counterexample :
    tokenPayloadConcat (buildAndStream [("Hello ".toList)]).1 ≠
      persistedAssistantContent [("Hello ".toList)] := by decide

/-- C1 (amended): the assistant message content persisted to the
messages table equals `trim` of the concatenation, in emission order, of
the payloads of all `token` events of the successful `buildAndStream`
call, and the single `answer` event carries exactly that persisted
text.  (They coincide with the raw concatenation whenever the stream
output has no leading or trailing whitespace.) -/
theorem buildAndStream_concat_spec (deltas : List Str) :
    jsTrim (tokenPayloadConcat (buildAndStream deltas).1) =
      persistedAssistantContent deltas ∧
    answerTexts (buildAndStream deltas).1 =
      [persistedAssistantContent deltas] := by
  obtain ⟨h1, h2, h3, h4⟩ := buildAndStream_fold_inv deltas [] 0 []
  have h2' : tokenPayloadConcat
      (deltas.foldl buildAndStreamStep ([], 0, [])).2.2 = deltas.flatten := by
    rw [h2]; rfl
  have h3' : answerTexts
      (deltas.foldl buildAndStreamStep ([], 0, [])).2.2 = [] := by
    rw [h3]; rfl
  have hsafety :
      (if (deltas.foldl buildAndStreamStep ([], 0, [])).2.1 = 0 ∧
          0 < (jsTrim (deltas.foldl buildAndStreamStep ([], 0, [])).1).length
        then [EmitEvent.token
          (jsTrim (deltas.foldl buildAndStreamStep ([], 0, [])).1)]
        else []) = ([] : List EmitEvent) := by
    by_cases hz : (deltas.foldl buildAndStreamStep ([], 0, [])).2.1 = 0
    · have hfl : deltas.flatten = [] := h4 hz
      have hbuf : (deltas.foldl buildAndStreamStep ([], 0, [])).1 = [] := by
        rw [h1, hfl]; rfl
      rw [hbuf]
      have hjt : jsTrim ([] : Str) = [] := rfl
      rw [hjt]
      simp
    · simp [hz]
  unfold buildAndStream persistedAssistantContent buildAndStream
  simp only [hsafety, List.append_nil]
  constructor
  · rw [tokenPayloadConcat_append, h2', h1]
    simp only [List.nil_append]
    rw [tokenPayloadConcat_answer, List.append_nil]
  · rw [answerTexts_append, h3', answerTexts_answer, List.nil_append]

/- ---------------- C5 ------------------------------------------------- -/

theorem entityMap_length_le (m : Str) : (entityMap m).length ≤ m.length := by
  unfold entityMap
  cases hfind : entityPairs.find? (fun p => decide (p.1 = m)) with
  | none => exact Nat.le_refl _
  | some p =>
    have hmem := List.mem_of_find?_eq_some hfind
    have hp : p.1 = m := by
      have := List.find?_some hfind
      simpa using this
    have hall : ∀ q ∈ entityPairs, q.2.length ≤ q.1.length := by decide
    calc p.2.length ≤ p.1.length := hall p hmem
      _ = m.length := by rw [hp]

theorem decodeEntitiesGo_length (s : Str) : ∀ st : Option Str,
    (decodeEntitiesGo s st).length ≤ s.length + pendingLen st := by
  induction s with
  | nil =>
    intro st
    cases st with
    | none => simp [decodeEntitiesGo, pendingLen]
    | some run =>
      have := entityMap_length_le ('&' :: run)
      simp only [decodeEntitiesGo, pendingLen, List.length_nil]
      simp only [List.length_cons] at this
      omega
  | cons c rest ih =>
    intro st
    cases st with
    | none =>
      by_cases hc : c = '&'
      · simp only [decodeEntitiesGo, if_pos hc, pendingLen, List.length_cons]
        have := ih (some [])
        simp only [pendingLen, List.length_nil] at this
        omega
      · simp only [decodeEntitiesGo, if_neg hc, pendingLen, List.length_cons]
        have := ih none
        simp only [pendingLen] at this
        omega
    | some run =>
      by_cases h1 : entityChar c
      · simp only [decodeEntitiesGo, if_pos h1, pendingLen, List.length_cons]
        have := ih (some (run ++ [c]))
        simp only [pendingLen, List.length_append, List.length_cons,
          List.length_nil] at this
        omega
      · by_cases h2 : c = ';' ∧ run ≠ []
        · simp only [decodeEntitiesGo, if_neg h1, if_pos h2, pendingLen,
            List.length_cons, List.length_append]
          have hih := ih none
          simp only [pendingLen] at hih
          have hm := entityMap_length_le ('&' :: run ++ [';'])
          simp only [List.length_append, List.length_cons,
            List.length_nil] at hm
          omega
        · by_cases h3 : run = []
          · subst h3
            by_cases hc : c = '&'
            · have := ih (some [])
              simp only [pendingLen, List.length_nil] at this
              have he : entityChar '&' = false := by decide
              simp [decodeEntitiesGo, hc, he, pendingLen]
              omega
            · have := ih none
              simp only [pendingLen] at this
              simp [decodeEntitiesGo, h1, h2, hc, pendingLen]
              omega
          · by_cases hc : c = '&'
            · simp only [decodeEntitiesGo, if_neg h1, if_neg h2, if_neg h3,
                if_pos hc, pendingLen, List.length_cons, List.length_append]
              have := ih (some [])
              simp only [pendingLen, List.length_nil] at this
              have hm := entityMap_length_le ('&' :: run)
              simp only [List.length_cons] at hm
              omega
            · simp only [decodeEntitiesGo, if_neg h1, if_neg h2, if_neg h3,
                if_neg hc, pendingLen, List.length_cons, List.length_append]
              have := ih none
              simp only [pendingLen] at this
              have hm := entityMap_length_le ('&' :: run)
              simp only [List.length_cons] at hm
              omega

theorem decodeHtmlEntities_length (s : Str) :
    (decodeHtmlEntities s).length ≤ s.length := by
  have := decodeEntitiesGo_length s none
  simpa [decodeHtmlEntities, pendingLen] using this

theorem collapseSpaceTabRuns_length (s : Str) : ∀ b : Bool,
    (collapseSpaceTabRuns s b).length ≤ s.length := by
  induction s with
  | nil => intro b; simp [collapseSpaceTabRuns]
  | cons c r ih =>
    intro b
    by_cases hc : isSpaceTab c
    · cases b with
      | true =>
        have := ih true
        simp [collapseSpaceTabRuns, hc]
        omega
      | false =>
        have := ih true
        simp [collapseSpaceTabRuns, hc]
        omega
    · have := ih false
      simp [collapseSpaceTabRuns, hc]
      omega

theorem collapseNlRuns_length (s : Str) : ∀ k : Nat,
    (collapseNlRuns s k).length ≤ s.length + min k 2 := by
  induction s with
  | nil => intro k; simp [collapseNlRuns]
  | cons c r ih =>
    intro k
    by_cases hc : c = '\n'
    · simp only [collapseNlRuns, if_pos hc, List.length_cons]
      have := ih (k + 1)
      omega
    · simp only [collapseNlRuns, if_neg hc, List.length_cons,
        List.length_append, List.length_replicate]
      have := ih 0
      omega

theorem stripWsBeforeNl_length (s : Str) : ∀ pend : Str,
    (stripWsBeforeNl s pend).length ≤ s.length + pend.length := by
  induction s with
  | nil => intro pend; simp [stripWsBeforeNl]
  | cons c r ih =>
    intro pend
    by_cases h1 : isSpaceTab c
    · simp only [stripWsBeforeNl, if_pos h1, List.length_cons]
      have := ih (pend ++ [c])
      simp only [List.length_append, List.length_cons, List.length_nil] at this
      omega
    · by_cases h2 : c = '\n'
      · simp only [stripWsBeforeNl, if_neg h1, if_pos h2, List.length_cons]
        have := ih []
        simp only [List.length_nil] at this
        omega
      · simp only [stripWsBeforeNl, if_neg h1, if_neg h2, List.length_cons,
          List.length_append]
        have := ih []
        simp only [List.length_nil] at this
        omega

theorem collapseAllWs_length (s : Str) : ∀ b : Bool,
    (collapseAllWs s b).length ≤ s.length := by
  induction s with
  | nil => intro b; simp [collapseAllWs]
  | cons c r ih =>
    intro b
    by_cases hc : isJsSpace c
    · cases b with
      | true =>
        have := ih true
        simp [collapseAllWs, hc]
        omega
      | false =>
        have := ih true
        simp [collapseAllWs, hc]
        omega
    · have := ih false
      simp [collapseAllWs, hc]
      omega

theorem jsTrim_length (s : Str) : (jsTrim s).length ≤ s.length := by
  unfold jsTrim jsTrimEnd jsTrimStart
  calc ((s.dropWhile isJsSpace).reverse.dropWhile isJsSpace).reverse.length
      = ((s.dropWhile isJsSpace).reverse.dropWhile isJsSpace).length := by
        rw [List.length_reverse]
    _ ≤ (s.dropWhile isJsSpace).reverse.length :=
        (List.dropWhile_sublist _).length_le
    _ = (s.dropWhile isJsSpace).length := by rw [List.length_reverse]
    _ ≤ s.length := (List.dropWhile_sublist _).length_le

/-- C5 counterexample: `sanitizeText "&gt;"` with default options decodes
the entity to `">"`, a character that does not occur in the input, so
"never introduces new characters" fails. -/
theorem sanitizeText_newchar_counterexample :
    sanitizeText ("&gt;".toList) defaultSanitizeOpts = (">".toList) ∧
    ('>' ∈ sanitizeText ("&gt;".toList) defaultSanitizeOpts) ∧
    ¬ ('>' ∈ ("&gt;".toList)) := by decide

/-- C5 (amended): for ASCII input (where the requested Unicode
normalization is the identity) and every option combination used in the
repository (all call sites pass `stripMarkdownSyntax: false`),
`sanitizeText` returns a string no longer than its input.  The second
half of the original claim is false: entity decoding (and whitespace
collapsing) can introduce characters that do not occur in the input. -/
theorem sanitizeText_length_le (s : Str) (o : SanitizeOpts)
    (_hascii : ∀ c ∈ s, c.toNat ≤ 0x7f) :
    (sanitizeText s o).length ≤ s.length := by
  unfold sanitizeText
  by_cases hs : s = []
  · simp [hs]
  · simp only [if_neg hs]
    have h1 : (if o.normalize then normalizeUnicode s else s).length =
        s.length := by
      unfold normalizeUnicode
      split <;> rfl
    set t1 := if o.normalize then normalizeUnicode s else s with ht1
    have h2 : (if o.removeControl then removeControlChars t1 else t1).length ≤
        t1.length := by
      split
      · exact List.length_filter_le _ _
      · exact Nat.le_refl _
    set t2 := if o.removeControl then removeControlChars t1 else t1 with ht2
    have h3 : (if o.decodeEntities then decodeHtmlEntities t2 else t2).length ≤
        t2.length := by
      split
      · exact decodeHtmlEntities_length t2
      · exact Nat.le_refl _
    set t3 := if o.decodeEntities then decodeHtmlEntities t2 else t2 with ht3
    have hchain : t3.length ≤ s.length := by omega
    split
    · split
      · have ha := stripWsBeforeNl_length
          (collapseNlRuns (collapseSpaceTabRuns t3 false) 0) []
        have hb := collapseNlRuns_length (collapseSpaceTabRuns t3 false) 0
        have hc := collapseSpaceTabRuns_length t3 false
        simp only [List.length_nil] at ha
        omega
      · have ha := jsTrim_length (collapseAllWs t3 false)
        have hb := collapseAllWs_length t3 false
        omega
    · exact hchain

/-- C5 witness: a concrete ASCII input with entities, tabs and newline
runs, under full collapsing options. -/
theorem sanitizeText_length_le_witness :
    (∀ c ∈ (("a&nbsp;b\t\tc\n\n\n\nd ").toList), c.toNat ≤ 0x7f) ∧
    (sanitizeText (("a&nbsp;b\t\tc\n\n\n\nd ").toList)
        ⟨true, true, true, true, true⟩).length ≤
      (("a&nbsp;b\t\tc\n\n\n\nd ").toList).length :=
  ⟨by decide, sanitizeText_length_le _ ⟨true, true, true, true, true⟩ (by decide)⟩

/- ---------------- C3 ------------------------------------------------- -/

/-- C3: the specification's own binding example fails in the code.  With
hay `"The Curie temperature of iron is 770 °C at standard pressure."`
and quote `"Curie temperature of iron is 770°C"`, `findQuoteOffsets`
returns `null` — under the default options and under the exact options
passed by `bindOffsetsForEvidence` — instead of the claimed offsets
spanning `"Curie … 770 °C"`: the tolerant matcher can never skip hay
whitespace at a position where the needle has none. -/
theorem findQuoteOffsets_curie_null :
    findQuoteOffsets hayCurie needleCurie defaultFqoOpts = none ∧
    findQuoteOffsets hayCurie needleCurie bindOffsetsFqoOpts = none := by
  decide

/- ---------------- C8 ------------------------------------------------- -/

/-- C8 counterexample: on a verify-stage output that wraps valid JSON in
prose, the largest-brace-substring parse (`parseJSON` of messages.ts)
succeeds and yields one claim, yet the verify result is `{claims: []}`:
the verify path's `safeJson` never attempts brace extraction. -/
theorem safeJson_no_brace_extraction_counterexample :
    verifyParseResult verifyLlmOutC8 = ⟨[]⟩ ∧
    verifyParseViaParseJSON verifyLlmOutC8 =
      ⟨[⟨"Iron melts".toList, ClaimType.other, 1, false, none, []⟩]⟩ := by
  decide

/-- C8 (amended): the verify-stage tolerant parser (`safeJson`) strips
code fences and attempts one direct `JSON.parse`; it has no
brace-substring extraction step (that exists only in `parseJSON` of
messages.ts, used by the NLI stage), so whenever the fence-stripped
trimmed text is not directly parseable the verify result becomes
`{claims: []}` immediately. -/
theorem safeJson_parse_failure (s : Str)
    (h : jsonParse (safeJsonUnwrap s) = none) :
    safeJson s = Json.obj JsonObj.nil ∧ verifyParseResult s = ⟨[]⟩ := by
  have hsj : safeJson s = Json.obj JsonObj.nil := by
    unfold safeJson
    rw [h]
  refine ⟨hsj, ?_⟩
  unfold verifyParseResult
  rw [hsj]
  rfl

/-- C8 witness: a fence-free non-JSON verify output. -/
theorem safeJson_parse_failure_witness :
    jsonParse (safeJsonUnwrap (("The model could not verify this.").toList)) =
      none ∧
    (safeJson (("The model could not verify this.").toList) =
        Json.obj JsonObj.nil ∧
     verifyParseResult (("The model could not verify this.").toList) = ⟨[]⟩) :=
  ⟨by decide, safeJson_parse_failure _ (by decide)⟩

/- ---------------- C6 ------------------------------------------------- -/

/-- C6 counterexample: at depth "deep" the cap is 6, yet a plan response
with seven subqueries passes the schema and all seven are searched. -/
theorem planSubqueries_cap_counterexample :
    maxSubqueriesFor Depth.deep = 6 ∧
    (searchedSubqueries (("What is the Curie point of iron?").toList)
        planLlmOut7).length = 7 := by
  decide

/-- C6 (amended): the depth-derived cap (deep 6, normal 4, quick 3) is
passed to the plan prompt as guidance only; the orchestrator searches
the parsed plan's subqueries verbatim — whatever list passes
`PlanResponseSchema` (any length at least 1) is searched without
truncation, so the searched count is not bounded by the cap. -/
theorem planSubqueries_cap_guidance_only (question : Str) (raw : Json)
    (p : PlanResponse)
    (h : zPlanResponse (normalizeRawSubqueries raw) = some p)
    (hne : p.subqueries ≠ []) :
    maxSubqueriesFor Depth.deep = 6 ∧ maxSubqueriesFor Depth.normal = 4 ∧
    maxSubqueriesFor Depth.quick = 3 ∧
    (planFromJson question raw).subqueries = p.subqueries := by
  refine ⟨rfl, rfl, rfl, ?_⟩
  unfold planFromJson
  rw [h]
  simp [hne]

/-- C6 witness: the seven-subquery response above parses to a plan whose
seven subqueries are searched unchanged. -/
theorem planSubqueries_cap_guidance_only_witness :
    zPlanResponse (normalizeRawSubqueries (safeJson planLlmOut7)) =
      some ⟨("overview").toList,
        [("q1").toList, ("q2").toList, ("q3").toList, ("q4").toList,
         ("q5").toList, ("q6").toList, ("q7").toList], [],
        ⟨none, none, none, none⟩⟩ ∧
    (maxSubqueriesFor Depth.deep = 6 ∧ maxSubqueriesFor Depth.normal = 4 ∧
     maxSubqueriesFor Depth.quick = 3 ∧
     (planFromJson (("q").toList) (safeJson planLlmOut7)).subqueries =
       (⟨("overview").toList,
        [("q1").toList, ("q2").toList, ("q3").toList, ("q4").toList,
         ("q5").toList, ("q6").toList, ("q7").toList], [],
        ⟨none, none, none, none⟩⟩ : PlanResponse).subqueries) :=
  ⟨by decide,
   planSubqueries_cap_guidance_only (("q").toList) (safeJson planLlmOut7) _
     (by decide) (by decide)⟩

/- ---------------- C9 ------------------------------------------------- -/

/-- C9: the encode-decode roundtrip fails.  `formatEvent` ends the
serialized event with a single newline (the final blank line produced by
`lines.push('')` is never itself newline-terminated by `join('\n')`), so
the decoder, which dispatches only on `"\n\n"`, yields no event from the
encoded bytes; `flush` clears the buffer before reprocessing and so
recovers nothing; and two encoded events followed by a heartbeat comment
decode as a single merged event with a garbled concatenated payload
instead of two events. -/
theorem formatEvent_decode_failure :
    tokenEventBytes = ("event: token\ndata: \x22hi\x22\n").toList ∧
    (decoderPush [] tokenEventBytes).1 = [] ∧
    (decoderPush [] tokenEventBytes).2 = tokenEventBytes ∧
    (decoderFlush (decoderPush [] tokenEventBytes).2).1 = [] ∧
    (decoderPush []
        (tokenEventBytes ++ tokenEventBytes ++ (": ping 1\n\n").toList)).1 =
      [⟨("token".toList),
        SSEData.raw (("\x22hi\x22\n\x22hi\x22").toList), none, none,
        some (("ping 1").toList)⟩] := by
  decide

/- ---------------- C4 ------------------------------------------------- -/

theorem toNat_ofNat_lt (n : Nat) (h : n < 0xd800) : (Char.ofNat n).toNat = n := by
  simp only [Char.ofNat, Nat.isValidChar, Char.toNat]
  rw [dif_pos (Or.inl h)]
  simp [Char.ofNatAux, UInt32.toNat, BitVec.toNat_ofNatLt]

theorem jsToLower_not_upper (c : Char) :
    ¬ (65 ≤ (jsToLower c).toNat ∧ (jsToLower c).toNat ≤ 90) := by
  by_cases h0 : 65 ≤ c.toNat ∧ c.toNat ≤ 90
  · have ht : (Char.ofNat (c.toNat + 32)).toNat = c.toNat + 32 :=
      toNat_ofNat_lt _ (by omega)
    simp only [jsToLower, if_pos h0, ht]
    omega
  · simp only [jsToLower, if_neg h0]
    exact h0

theorem jsToLower_idem (c : Char) : jsToLower (jsToLower c) = jsToLower c := by
  have h := jsToLower_not_upper c
  conv_lhs => rw [jsToLower]
  rw [if_neg h]

theorem mapLower_idem (s : Str) :
    (s.map jsToLower).map jsToLower = s.map jsToLower := by
  rw [List.map_map]
  exact List.map_congr_left fun c _ => jsToLower_idem c

theorem lexLe_total (a : Str) : ∀ b : Str, lexLe a b = true ∨ lexLe b a = true := by
  induction a with
  | nil => intro b; left; rfl
  | cons x xs ih =>
    intro b
    cases b with
    | nil => right; rfl
    | cons y ys =>
      rcases Nat.lt_trichotomy x.toNat y.toNat with h | h | h
      · left
        simp [lexLe, h]
      · have hnlt : ¬ x.toNat < y.toNat := by omega
        have hnlt2 : ¬ y.toNat < x.toNat := by omega
        rcases ih ys with hxy | hyx
        · left; simp [lexLe, hnlt, hnlt2, hxy]
        · right; simp [lexLe, hnlt, hnlt2, hyx]
      · right
        simp [lexLe, h]

theorem insertParam_mem (p : Str × Str) (l : List (Str × Str)) :
    ∀ x ∈ insertParam p l, x = p ∨ x ∈ l := by
  induction l with
  | nil =>
    intro x hx
    simp [insertParam] at hx
    exact Or.inl hx
  | cons q qs ih =>
    intro x hx
    by_cases h : lexLe p.1 q.1
    · simp only [insertParam, if_pos h, List.mem_cons] at hx
      rcases hx with h1 | h1 | h1
      · exact Or.inl h1
      · exact Or.inr (by simp [h1])
      · exact Or.inr (by simp [h1])
    · simp only [insertParam, if_neg h, List.mem_cons] at hx
      rcases hx with h1 | h1
      · exact Or.inr (by simp [h1])
      · rcases ih x h1 with h2 | h2
        · exact Or.inl h2
        · exact Or.inr (by simp [h2])

theorem sortParams_mem (l : List (Str × Str)) :
    ∀ x ∈ sortParams l, x ∈ l := by
  induction l with
  | nil => intro x hx; simp [sortParams] at hx
  | cons p ps ih =>
    intro x hx
    simp only [sortParams] at hx
    rcases insertParam_mem p (sortParams ps) x hx with h | h
    · simp [h]
    · exact List.mem_cons_of_mem _ (ih x h)

theorem insertParam_chain (p : Str × Str) (l : List (Str × Str))
    (h : List.Chain' (fun a b : Str × Str => lexLe a.1 b.1 = true) l) :
    List.Chain' (fun a b : Str × Str => lexLe a.1 b.1 = true)
      (insertParam p l) := by
  induction l with
  | nil => simp [insertParam]
  | cons q qs ih =>
    by_cases hle : lexLe p.1 q.1
    · simp only [insertParam, if_pos hle]
      exact List.Chain'.cons hle h
    · simp only [insertParam, if_neg hle]
      have hqp : lexLe q.1 p.1 = true := by
        rcases lexLe_total p.1 q.1 with h1 | h1
        · exact absurd h1 hle
        · exact h1
      have htl := ih (h.tail)
      cases qs with
      | nil =>
        simp only [insertParam]
        exact List.Chain'.cons hqp (by simp)
      | cons q2 qs2 =>
        by_cases hle2 : lexLe p.1 q2.1
        · simp only [insertParam, if_pos hle2] at htl ⊢
          exact List.Chain'.cons hqp htl
        · simp only [insertParam, if_neg hle2] at htl ⊢
          have hq2 : lexLe q.1 q2.1 = true := (List.chain'_cons.mp h).1
          exact List.Chain'.cons hq2 htl

theorem sortParams_sorted (l : List (Str × Str)) :
    List.Chain' (fun a b : Str × Str => lexLe a.1 b.1 = true)
      (sortParams l) := by
  induction l with
  | nil => simp [sortParams]
  | cons p ps ih => exact insertParam_chain p (sortParams ps) ih

theorem sortParams_eq_self (l : List (Str × Str))
    (h : List.Chain' (fun a b : Str × Str => lexLe a.1 b.1 = true) l) :
    sortParams l = l := by
  induction l with
  | nil => rfl
  | cons p ps ih =>
    simp only [sortParams]
    rw [ih h.tail]
    cases ps with
    | nil => rfl
    | cons q qs =>
      have hle : lexLe p.1 q.1 = true := (List.chain'_cons.mp h).1
      simp [insertParam, hle]

theorem head_dropSlashes_ne (l : Str) :
    ∀ a, (l.dropWhile (· = '/')).head? = some a → a ≠ '/' := by
  induction l with
  | nil => intro a ha; simp [List.dropWhile] at ha
  | cons c r ih =>
    intro a ha
    by_cases hc : c = '/'
    · rw [List.dropWhile_cons_of_pos (by simp [hc])] at ha
      exact ih a ha
    · rw [List.dropWhile_cons_of_neg (by simp [hc])] at ha
      simp at ha
      rw [← ha]
      exact hc

theorem dropTrailingSlashes_no_slash (p : Str) :
    endsWithSlash (dropTrailingSlashes p) = false := by
  unfold endsWithSlash dropTrailingSlashes
  rw [List.getLast?_reverse]
  cases hh : (p.reverse.dropWhile (· = '/')).head? with
  | none => simp
  | some a =>
    have := head_dropSlashes_ne p.reverse a hh
    simp [this]

theorem canonPath_idem (p : Str) : canonPath (canonPath p) = canonPath p := by
  unfold canonPath
  by_cases h : endsWithSlash p = true ∧ p ≠ ("/".toList)
  · rw [if_pos h]
    rw [if_neg]
    intro hcon
    have := dropTrailingSlashes_no_slash p
    rw [hcon.1] at this
    exact absurd this (by decide)
  · rw [if_neg h, if_neg h]

/-- C4: `canonicalizeUrl` is idempotent, and its result has an empty
fragment, no tracking query parameters (`utm_` prefix, `gclid`,
`fbclid`, `mc_cid`, `mc_eid`, `ref`, `ref_src`), its remaining query
parameters sorted by key, no trailing slash on a non-root path, and a
scheme and host containing no uppercase ASCII letters. -/
theorem canonicalizeUrl_spec (u : UrlRecord) :
    canonicalizeUrl (canonicalizeUrl u) = canonicalizeUrl u ∧
    (canonicalizeUrl u).fragment = [] ∧
    (∀ p ∈ (canonicalizeUrl u).query, isTrackingKey p.1 = false) ∧
    List.Chain' (fun a b : Str × Str => lexLe a.1 b.1 = true)
      (canonicalizeUrl u).query ∧
    ((canonicalizeUrl u).path = ("/".toList) ∨
      endsWithSlash (canonicalizeUrl u).path = false) ∧
    (∀ c ∈ (canonicalizeUrl u).scheme, ¬ (65 ≤ c.toNat ∧ c.toNat ≤ 90)) ∧
    (∀ c ∈ (canonicalizeUrl u).host, ¬ (65 ≤ c.toNat ∧ c.toNat ≤ 90)) := by
  have htrack : ∀ p ∈ (canonicalizeUrl u).query, isTrackingKey p.1 = false := by
    intro p hp
    have hmem := sortParams_mem _ p hp
    have := List.of_mem_filter hmem
    simpa using this
  refine ⟨?_, rfl, htrack, sortParams_sorted _, ?_, ?_, ?_⟩
  · simp only [canonicalizeUrl, UrlRecord.mk.injEq]
    refine ⟨mapLower_idem _, mapLower_idem _, trivial, canonPath_idem _, ?_,
      trivial⟩
    have hfil : (sortParams (u.query.filter fun p => !isTrackingKey p.1)).filter
        (fun p => !isTrackingKey p.1) =
        sortParams (u.query.filter fun p => !isTrackingKey p.1) := by
      rw [List.filter_eq_self]
      intro a ha
      have := List.of_mem_filter (sortParams_mem _ a ha)
      exact this
    rw [hfil]
    exact sortParams_eq_self _ (sortParams_sorted _)
  · simp only [canonicalizeUrl]
    unfold canonPath
    by_cases h : endsWithSlash u.path = true ∧ u.path ≠ ("/".toList)
    · rw [if_pos h]
      exact Or.inr (dropTrailingSlashes_no_slash u.path)
    · rw [if_neg h]
      rcases Decidable.not_and_iff_or_not.mp h with h1 | h1
      · exact Or.inr (by simpa using h1)
      · exact Or.inl (by simpa using h1)
  · intro c hc
    simp only [canonicalizeUrl, List.mem_map] at hc
    obtain ⟨x, _, hx⟩ := hc
    rw [← hx]
    exact jsToLower_not_upper x
  · intro c hc
    simp only [canonicalizeUrl, List.mem_map] at hc
    obtain ⟨x, _, hx⟩ := hc
    rw [← hx]
    exact jsToLower_not_upper x


/- ---------------- C2: splitIntoWindows chunk-offset invariant ------ -/

theorem pScan_nl (l : Str) (pos start k : Nat) :
    pScan ('\n' :: l) pos start k = pScan l (pos + 1) start (k + 1) := by
  simp only [pScan]
  simp only [if_true]

theorem pScan_low {c : Char} (hc : c ≠ '\n') (l : Str) (pos start k : Nat)
    (hk : k < 2) : pScan (c :: l) pos start k = pScan l (pos + 1) start 0 := by
  simp only [pScan]
  rw [if_neg hc, if_neg (by omega : ¬ 2 ≤ k)]

theorem pScan_emit {c : Char} (hc : c ≠ '\n') (l : Str) (pos start k : Nat)
    (hk : 2 ≤ k) (hlt : start < pos - k) :
    pScan (c :: l) pos start k = (start, pos - k) :: pScan l (pos + 1) pos 0 := by
  simp only [pScan]
  rw [if_neg hc, if_pos hk, if_pos hlt]
  rfl

theorem pScan_run {c : Char} (hc : c ≠ '\n') :
    ∀ (n : Nat) (l : Str) (pos start : Nat),
    pScan (List.replicate n c ++ l) pos start 0 = pScan l (pos + n) start 0 := by
  intro n
  induction n with
  | zero => intro l pos start; simp
  | succ m ih =>
    intro l pos start
    rw [List.replicate_succ, List.cons_append,
      pScan_low hc _ pos start 0 (by omega), ih]
    have h : pos + 1 + m = pos + (m + 1) := by omega
    rw [h]

theorem pScan_run_emit {c : Char} (hc : c ≠ '\n') (n : Nat) (hn : 1 ≤ n)
    (l : Str) (pos start k : Nat) (hk : 2 ≤ k) (hlt : start < pos - k) :
    pScan (List.replicate n c ++ l) pos start k =
      (start, pos - k) :: pScan l (pos + n) pos 0 := by
  obtain ⟨m, rfl⟩ : ∃ m, n = m + 1 := ⟨n - 1, by omega⟩
  rw [List.replicate_succ, List.cons_append, pScan_emit hc _ pos start k hk hlt,
    pScan_run hc m l (pos + 1) pos]
  have h : pos + 1 + m = pos + (m + 1) := by omega
  rw [h]

theorem pScan_end (pos start k : Nat) (hk : k < 2) (hlt : start < pos) :
    pScan [] pos start k = [(start, pos)] := by
  simp only [pScan]
  rw [if_neg (by omega : ¬ 2 ≤ k), if_pos hlt]

theorem paras_sBug :
    splitParagraphs sBug = [(0, 2000), (2002, 3902), (3904, 4404)] := by
  unfold splitParagraphs sBug
  rw [pScan_run (by decide) 2000]
  norm_num
  rw [pScan_nl, pScan_nl]
  norm_num
  rw [pScan_run_emit (by decide) 1900 (by norm_num) _ 2002 0 2 (by norm_num)
    (by norm_num)]
  norm_num
  rw [pScan_nl, pScan_nl]
  norm_num
  rw [show List.replicate 500 'c' = List.replicate 500 'c' ++ ([] : Str) from
    (List.append_nil _).symm]
  rw [pScan_run_emit (by decide) 500 (by norm_num) _ 3904 2002 2 (by norm_num)
    (by norm_num)]
  norm_num
  rw [pScan_end 4404 3904 0 (by norm_num) (by norm_num)]

theorem jsSlice_length (s : Str) (a b : Nat) :
    (jsSlice s a b).length = min b s.length - a := by
  simp [jsSlice]

theorem sBug_length : sBug.length = 4404 := by
  unfold sBug
  simp only [List.length_append, List.length_cons, List.length_replicate]

theorem sBug_ne_nil : sBug ≠ [] := by
  intro h
  have := sBug_length
  rw [h] at this
  simp at this

theorem windows_of_three_paras (s : Str) (hlen : s.length = 4404)
    (hps : splitParagraphs s = [(0, 2000), (2002, 3902), (3904, 4404)]) :
    splitIntoWindowsIngest s =
      [⟨jsSlice s 0 2000 ++ ('\n' :: '\n' :: []) ++ jsSlice s 2002 3902,
        2002, 3902,
        estimateTokens (jsSlice s 0 2000 ++ ('\n' :: '\n' :: []) ++
          jsSlice s 2002 3902)⟩,
       ⟨jsSlice s 3302 3902 ++ '\n' :: '\n' :: jsSlice s 3904 4404,
        3302, 4404,
        estimateTokens (jsSlice s 3302 3902 ++ '\n' :: '\n' ::
          jsSlice s 3904 4404)⟩] := by
  have hs1 : (jsSlice s 0 2000).length = 2000 := by
    rw [jsSlice_length, hlen]; omega
  have hs2 : (jsSlice s 2002 3902).length = 1900 := by
    rw [jsSlice_length, hlen]; omega
  have hs3 : (jsSlice s 3904 4404).length = 500 := by
    rw [jsSlice_length, hlen]; omega
  have hne1 : jsSlice s 0 2000 ≠ [] := by
    intro h; rw [h] at hs1; simp at hs1
  have h0 : ¬ (s = [] ∨ s.length ≤ 4000) := by
    rintro (h | h)
    · rw [h] at hlen; simp at hlen
    · omega
  unfold splitIntoWindowsIngest
  rw [if_neg h0, hps]
  rw [winLoop]
  rw [if_neg (by simp)]
  simp only [if_true, List.nil_append, ite_self]
  rw [winLoop]
  rw [if_neg hne1]
  rw [if_neg (by
    rintro ⟨h, _⟩
    simp only [List.length_append, List.length_cons, List.length_nil, hs1,
      hs2] at h
    omega)]
  rw [if_pos ⟨rfl, by simp⟩]
  rw [winLoop]
  simp only []
  have hbuf2 : jsSlice s 0 2000 ++ (('\n' :: '\n' :: []) ++
      jsSlice s 2002 3902) ≠ ([] : Str) := by simp
  rw [if_neg hbuf2]
  rw [if_pos ⟨by
    simp only [List.length_append, List.length_cons, List.length_nil, hs1,
      hs2, hs3]
    omega, hbuf2⟩]
  rw [show (3902 : Nat) - 600 = 3302 from by norm_num]
  rw [show max 2002 3302 = 3302 from by norm_num]
  rw [winLoop]
  rw [if_pos (by simp)]
  simp only [List.nil_append, List.append_assoc]
  rfl

/-- Claim C2: the spec's chunk-offset invariant — every window `w` of
`splitIntoWindows(s, \x7brespectParagraphs: true\x7d)` satisfies
`w.text = s.slice(w.charStart, w.charEnd)` — fails in the code.  On a
4404-character text of three paragraphs (2000, 1900 and 500 characters)
the first produced window carries both of the first two paragraphs
(3902 characters of text) while its recorded span `[2002, 3902)` covers
only the second paragraph: the `bufStart === 0 && buf` reassignment at
text.ts line 122 overwrites the first window's start once a second
paragraph is appended to a buffer that began at offset 0, so
`w.text ≠ s.slice(w.charStart, w.charEnd)`. -/
theorem splitIntoWindows_offset_mismatch :
    ∃ w ∈ splitIntoWindowsIngest sBug,
      w.charStart = 2002 ∧ w.charEnd = 3902 ∧ w.text.length = 3902 ∧
      w.text ≠ jsSlice sBug w.charStart w.charEnd := by
  have h := windows_of_three_paras sBug sBug_length paras_sBug
  have hs1 : (jsSlice sBug 0 2000).length = 2000 := by
    rw [jsSlice_length, sBug_length]; omega
  have hs2 : (jsSlice sBug 2002 3902).length = 1900 := by
    rw [jsSlice_length, sBug_length]; omega
  refine ⟨_, by rw [h]; exact List.mem_cons_self _ _, rfl, rfl, ?_, ?_⟩
  · simp only [List.length_append, List.length_cons, List.length_nil, hs1, hs2]
  · intro heq
    have hL := congrArg List.length heq
    rw [jsSlice_length, sBug_length] at hL
    simp only [List.length_append, List.length_cons, List.length_nil, hs1,
      hs2] at hL
    omega
